import Mathlib

/-!
# Epoch-quorum consensus core: proof verifiers, majority, ALRP chains, samplers

A shallow embedding of `common_functions/work_with_proofs.go` and
`common_functions/quorum_related.go`.

Modelling conventions
* A Go `map[string]V` that is only iterated is a `List (String × V)`: the list
  is the order in which one `range` loop visits the entries. A Go map has
  pairwise distinct keys, which is the predicate `NodupKeys`.
* A Go `map[string]bool` used as a set is the list of the keys set to `true`;
  reading a key is list membership.
* Library functions that live outside the repository (`ed25519.VerifySignature`,
  `strings.ToLower`, `utils.Blake3`, `big.Int.SetString`) are the fields of
  `Externals`; every theorem holds for all of them.
* A run-time panic is the result `none`. Pointers to proofs, blocks and epoch handlers
  are taken non-nil.
* The chain validators reslice `LeadersSequence`, which Go bounds by the capacity of the
  slice and not by its length. The strings that the backing array holds between the length
  and the capacity are the argument `spareCapacity` of the validators (zero-valued strings
  after `append` has grown the array).
* Each `range` over the map `validatorsExtendedData` may visit the candidates in another
  order; the order of the `i`-th loop is given by a `RangeOrder`, and the claims are proved
  for every valid one.
* The concurrent fan-out of `GetBlock` is its list of request URLs, the answers of the
  peers and the order in which the answers arrive (`Peers`); the claims on `GetBlock` hold
  for all of them.
* `int` is 64 bit. `2 * len(quorum)` cannot overflow, a slice of strings has
  fewer than `2^59` elements, so lengths are natural numbers.
-/

namespace ProtoLayer

/-- The functions the code calls and that are defined outside the repository. -/
structure Externals where
  /-- The function `ed25519.VerifySignature(data, pubKey, signature)`. -/
  VerifySignature : String → String → String → Bool
  /-- The function `strings.ToLower`. -/
  ToLower : String → String
  /-- The function `utils.Blake3`, a hex digest. -/
  Blake3 : String → String
  /-- The value `new(big.Int).SetString(s, 16)` of a hex string. -/
  SetString16 : String → Nat

/-- ASCII lower-casing: what `strings.ToLower` computes on an ASCII string. -/
def asciiToLower (s : String) : String := String.mk (s.data.map Char.toLower)

/-- The entries of a map have pairwise distinct keys. -/
def NodupKeys {V : Type} (m : List (String × V)) : Prop := (m.map Prod.fst).Nodup

/-- The statement `delete(m, key)` on a map. -/
def mapDelete {V : Type} (key : String) (m : List (String × V)) : List (String × V) :=
  m.filter (fun entry => entry.1 != key)

/-- The function `strconv.Itoa`. -/
def Itoa (i : Int) : String := toString i

/-- The conversion `int(x)` of a 64-bit `uint`. -/
def uintToInt (x : Nat) : Int :=
  if x % 2 ^ 64 < 2 ^ 63 then ((x % 2 ^ 64 : Nat) : Int) else ((x % 2 ^ 64 : Nat) : Int) - 2 ^ 64

/-- Modelled from the spec: the record `structures.EpochDataHandler` (the package `structures` is not
part of the sources). `PoolsRegistry` is a map keyed by
pubkey, given as its keys in iteration order. -/
structure EpochDataHandler where
  Id : Int
  Hash : String
  PoolsRegistry : List String
  Quorum : List String
  LeadersSequence : List String

/-- Modelled from the spec: the record `structures.AggregatedEpochFinalizationProof` (the package `structures` is not
part of the sources). -/
structure AggregatedEpochFinalizationProof where
  LastLeader : Nat
  LastIndex : Nat
  LastHash : String
  HashOfFirstBlockByLastLeader : String
  Proofs : List (String × String)

/-- Modelled from the spec: the record `structures.AggregatedFinalizationProof` (the package `structures` is not
part of the sources). -/
structure AggregatedFinalizationProof where
  PrevBlockHash : String
  BlockId : String
  BlockHash : String
  Proofs : List (String × String)

/-- Modelled from the spec: the record `structures.AggregatedLeaderRotationProof` (the package `structures` is not
part of the sources). -/
structure AggregatedLeaderRotationProof where
  FirstBlockHash : String
  SkipIndex : Int
  SkipHash : String
  Proofs : List (String × String)

/-- The function `GetQuorumMajority`. -/
def GetQuorumMajority (epochHandler : EpochDataHandler) : Int :=
  let quorumSize : Int := epochHandler.Quorum.length
  let majority := (2 * quorumSize) / 3
  let majority := majority + 1
  if majority > quorumSize then quorumSize else majority

/-- The loop `for _, pk := range quorum { quorumMap[strings.ToLower(pk)] = true }`. -/
def buildQuorumMap (ext : Externals) (quorum : List String) : List String :=
  quorum.foldl (fun quorumMap pk => ext.ToLower pk :: quorumMap) []

/-- One iteration of the loop over `proof.Proofs`; the state is `(seen, okSignatures)`. -/
def countStep (ext : Externals) (data : String) (quorumMap : List String)
    (st : List String × Nat) (entry : String × String) : List String × Nat :=
  if ext.VerifySignature data entry.1 entry.2 then
    let loweredPubKey := ext.ToLower entry.1
    if decide (loweredPubKey ∈ quorumMap) && !decide (loweredPubKey ∈ st.1) then
      (loweredPubKey :: st.1, st.2 + 1)
    else st
  else st

/-- The value of `okSignatures` after the loop over `proof.Proofs`, shared by the
three verifiers. -/
def okSignatures (ext : Externals) (data : String) (quorum : List String)
    (proofs : List (String × String)) : Nat :=
  (proofs.foldl (countStep ext data (buildQuorumMap ext quorum)) ([], 0)).2

/-- The message checked by `VerifyAggregatedEpochFinalizationProof`. -/
def epochFinalizationData (proofStruct : AggregatedEpochFinalizationProof)
    (epochFullID : String) : String :=
  "EPOCH_DONE:" ++
    Itoa (uintToInt proofStruct.LastLeader) ++ ":" ++
    Itoa (uintToInt proofStruct.LastIndex) ++ ":" ++
    proofStruct.LastHash ++ ":" ++
    proofStruct.HashOfFirstBlockByLastLeader ++ ":" ++
    epochFullID

/-- The function `VerifyAggregatedEpochFinalizationProof`. -/
def VerifyAggregatedEpochFinalizationProof (ext : Externals)
    (proofStruct : AggregatedEpochFinalizationProof) (quorum : List String) (majority : Int)
    (epochFullID : String) : Bool :=
  let dataThatShouldBeSigned := epochFinalizationData proofStruct epochFullID
  decide ((okSignatures ext dataThatShouldBeSigned quorum proofStruct.Proofs : Int) ≥ majority)

/-- The string `epochHandler.Hash + "#" + strconv.Itoa(epochHandler.Id)`. -/
def epochFullID (epochHandler : EpochDataHandler) : String :=
  epochHandler.Hash ++ "#" ++ Itoa epochHandler.Id

/-- The message checked by `VerifyAggregatedFinalizationProof`. -/
def finalizationData (proof : AggregatedFinalizationProof) (epochHandler : EpochDataHandler) :
    String :=
  proof.PrevBlockHash ++ proof.BlockId ++ proof.BlockHash ++ epochFullID epochHandler

/-- The function `VerifyAggregatedFinalizationProof`. -/
def VerifyAggregatedFinalizationProof (ext : Externals) (proof : AggregatedFinalizationProof)
    (epochHandler : EpochDataHandler) : Bool :=
  let dataThatShouldBeSigned := finalizationData proof epochHandler
  let majority := GetQuorumMajority epochHandler
  decide ((okSignatures ext dataThatShouldBeSigned epochHandler.Quorum proof.Proofs : Int)
    ≥ majority)

/-- The message checked by `VerifyAggregatedLeaderRotationProof`. -/
def leaderRotationData (pubKeyOfSomePreviousLeader : String)
    (proof : AggregatedLeaderRotationProof) (epochHandler : EpochDataHandler) : String :=
  "LEADER_ROTATION_PROOF:" ++ pubKeyOfSomePreviousLeader ++ ":" ++
    proof.FirstBlockHash ++ ":" ++
    Itoa proof.SkipIndex ++ ":" ++
    proof.SkipHash ++ ":" ++
    epochFullID epochHandler

/-- The function `VerifyAggregatedLeaderRotationProof`. -/
def VerifyAggregatedLeaderRotationProof (ext : Externals) (pubKeyOfSomePreviousLeader : String)
    (proof : AggregatedLeaderRotationProof) (epochHandler : EpochDataHandler) : Bool :=
  let dataThatShouldBeSigned := leaderRotationData pubKeyOfSomePreviousLeader proof epochHandler
  let majority := GetQuorumMajority epochHandler
  decide ((okSignatures ext dataThatShouldBeSigned epochHandler.Quorum proof.Proofs : Int)
    ≥ majority)

/-- The condition of the claims on one entry `(pk, sig)`: the signature verifies and
`lowercase(pk)` is the lower-case form of a quorum member. -/
def acceptsEntry (ext : Externals) (data : String) (quorum : List String)
    (entry : String × String) : Bool :=
  ext.VerifySignature data entry.1 entry.2 &&
    decide (ext.ToLower entry.1 ∈ quorum.map ext.ToLower)

/-- The set the claims count: the distinct lower-cased pubkeys of the entries whose
signature verifies and whose lower-cased pubkey is a lower-cased quorum member. -/
def acceptedSigners (ext : Externals) (data : String) (quorum : List String)
    (proofs : List (String × String)) : Finset String :=
  ((proofs.filter (acceptsEntry ext data quorum)).map
    (fun entry => ext.ToLower entry.1)).toFinset

/-- Modelled from the spec: the part of `block.Block` the validators read,
`extra_data.aggregated_leaders_rotation_proofs`, a map from the pubkey of a previous leader
to its rotation proof (the file `block/block.go` is not part of the sources). -/
structure ExtraData where
  AggregatedLeadersRotationProofs : List (String × AggregatedLeaderRotationProof)

/-- Modelled from the spec: the record `block.Block` with the fields
`creator_pubkey, index, prev_block_hash, extra_data`. -/
structure Block where
  Creator : String
  Index : Nat
  PrevHash : String
  ExtraData : ExtraData

/-- The loop of `CheckAlrpChainValidity` over `arrayForIteration`, started with the given
value of `arrayIndexer`. The result `none` is a `return false` inside the loop, the result
`some (arrayIndexer, bumpedWithPoolWhoCreatedAtLeastOneBlock)` is the state after the loop
(left by `break` or at its end). -/
def alrpLoop (ext : Externals)
    (aggregatedLeadersRotationProofsRef : List (String × AggregatedLeaderRotationProof))
    (epochHandler : EpochDataHandler) : List String → Nat → Option (Nat × Bool)
  | [], arrayIndexer => some (arrayIndexer, false)
  | poolPubKey :: rest, arrayIndexer =>
    match aggregatedLeadersRotationProofsRef.lookup poolPubKey with
    | some alrpForThisPool =>
      let signaIsOk := VerifyAggregatedLeaderRotationProof ext poolPubKey alrpForThisPool
        epochHandler
      if signaIsOk then
        if alrpForThisPool.SkipIndex ≥ 0 then some (arrayIndexer + 1, true)
        else alrpLoop ext aggregatedLeadersRotationProofsRef epochHandler rest
          (arrayIndexer + 1)
      else none
    | none => none

/-- The function `CheckAlrpChainValidity`. The slice expression
`epochHandler.LeadersSequence[:position]` panics when `position` is negative or exceeds
the capacity of the slice, and otherwise yields the first `position` strings of the backing
array `LeadersSequence ++ spareCapacity`. -/
def CheckAlrpChainValidity (ext : Externals) (firstBlockInThisEpochByPool : Block)
    (epochHandler : EpochDataHandler) (spareCapacity : List String) (position : Int) :
    Option Bool :=
  let aggregatedLeadersRotationProofsRef :=
    firstBlockInThisEpochByPool.ExtraData.AggregatedLeadersRotationProofs
  if position < 0 ∨ position > (epochHandler.LeadersSequence ++ spareCapacity).length then none
  else
    let arrayForIteration :=
      ((epochHandler.LeadersSequence ++ spareCapacity).take position.toNat).reverse
    match alrpLoop ext aggregatedLeadersRotationProofsRef epochHandler arrayForIteration 0 with
    | none => some false
    | some (arrayIndexer, bumpedWithPoolWhoCreatedAtLeastOneBlock) =>
      some (decide ((arrayIndexer : Int) = position) || bumpedWithPoolWhoCreatedAtLeastOneBlock)

/-- The block has an entry for `leader` that `VerifyAggregatedLeaderRotationProof` accepts. -/
def acceptedAlrp (ext : Externals) (block : Block) (eh : EpochDataHandler) (leader : String) :
    Bool :=
  match block.ExtraData.AggregatedLeadersRotationProofs.lookup leader with
  | some alrp => VerifyAggregatedLeaderRotationProof ext leader alrp eh
  | none => false

/-- The block has an accepted entry for `leader` whose `skip_index` is `>= 0`. -/
def acceptedProducer (ext : Externals) (block : Block) (eh : EpochDataHandler)
    (leader : String) : Bool :=
  match block.ExtraData.AggregatedLeadersRotationProofs.lookup leader with
  | some alrp => VerifyAggregatedLeaderRotationProof ext leader alrp eh &&
      decide (alrp.SkipIndex ≥ 0)
  | none => false

/-! ### The samplers of `quorum_related.go` -/

/-- The record `ValidatorData`; `TotalStake` is a copy of a non-negative stake. -/
structure ValidatorData where
  ValidatorPubKey : String
  TotalStake : Nat

/-- Modelled from the spec: the record `structures.PoolStorage` with the fields
`pool_pub_key, pool_url, total_staked`, the stake a non-negative big integer. -/
structure PoolStorage where
  PoolPubKey : String
  PoolUrl : String
  TotalStaked : Nat

/-- Modelled from the spec: the state store behind `GetFromApprovementThreadState`,
`globals.APPROVEMENT_THREAD_METADATA_HANDLER.Handler.Cache` and the database
`globals.APPROVEMENT_THREAD_METADATA` read through `json.Unmarshal` (`none` when the key is
missing or the bytes do not decode). -/
structure ApprovementThreadState where
  Cache : String → Option PoolStorage
  Storage : String → Option PoolStorage

/-- The function `GetFromApprovementThreadState`; `none` is the nil pointer. The write to
the cache stores the value that is returned, so a later read returns what it returns
without the write, and the state is not threaded. -/
def GetFromApprovementThreadState (state : ApprovementThreadState) (poolId : String) :
    Option PoolStorage :=
  match state.Cache poolId with
  | some val => some val
  | none => state.Storage poolId

/-- The order in which the `i`-th loop `range validatorsExtendedData` visits the entries of
the map: Go leaves it unspecified and it may differ from one loop to the next. -/
abbrev RangeOrder := Nat → List (String × ValidatorData) → List (String × ValidatorData)

/-- A range order visits every entry of the map exactly once. -/
def RangeOrder.Valid (order : RangeOrder) : Prop := ∀ i m, (order i m).Perm m

/-- The statement `m[key] = value` on a map. -/
def mapInsert {V : Type} (key : String) (value : V) (m : List (String × V)) :
    List (String × V) :=
  mapDelete key m ++ [(key, value)]

/-- The first loop of both samplers, over the keys of `PoolsRegistry`: it fills
`validatorsExtendedData` and `totalStakeSum`. Reading `TotalStaked` of a pool without
storage dereferences nil, the result `none`. -/
def collectValidators (state : ApprovementThreadState) :
    List String → List (String × ValidatorData) × Int → Option (List (String × ValidatorData) × Int)
  | [], acc => some acc
  | validatorPubKey :: rest, (validatorsExtendedData, totalStakeSum) =>
    match GetFromApprovementThreadState state (validatorPubKey ++ "(POOL)_STORAGE_POOL") with
    | none => none
    | some validatorData =>
      let totalStakeByThisValidator := validatorData.TotalStaked
      collectValidators state rest
        (mapInsert validatorPubKey ⟨validatorPubKey, totalStakeByThisValidator⟩
          validatorsExtendedData,
         totalStakeSum + totalStakeByThisValidator)

/-- The inner loop of the samplers over the candidates in iteration order, started with
the given `cumulativeSum`: the candidate at which the loop breaks, if any. -/
def pickValidator (deterministicRandomValue : Int) :
    List (String × ValidatorData) → Int → Option (String × ValidatorData)
  | [], _ => none
  | (validatorPubKey, validator) :: rest, cumulativeSum =>
    let cumulativeSum := cumulativeSum + validator.TotalStake
    if deterministicRandomValue ≤ cumulativeSum then some (validatorPubKey, validator)
    else pickValidator deterministicRandomValue rest cumulativeSum

/-- The outer loop of the samplers, `n` iterations from index `i` on, with the sequence
built so far, `totalStakeSum` and `validatorsExtendedData`. `big.Int.Mod` panics on a zero
modulus (division by zero), the result `none`; otherwise it is the Euclidean modulus. -/
def samplerLoop (ext : Externals) (order : RangeOrder) (hashOfMetadata : String) :
    Nat → Nat → List String → Int → List (String × ValidatorData) → Option (List String)
  | 0, _, sequence, _, _ => some sequence
  | n + 1, i, sequence, totalStakeSum, validatorsExtendedData =>
    let hashInput := hashOfMetadata ++ "_" ++ Itoa i
    if totalStakeSum = 0 then none
    else
      let deterministicRandomValue : Int :=
        (ext.SetString16 (ext.Blake3 hashInput) : Int) % totalStakeSum
      match pickValidator deterministicRandomValue (order i validatorsExtendedData) 0 with
      | some (validatorPubKey, validator) =>
        samplerLoop ext order hashOfMetadata n (i + 1) (sequence ++ [validatorPubKey])
          (totalStakeSum - validator.TotalStake) (mapDelete validatorPubKey validatorsExtendedData)
      | none =>
        samplerLoop ext order hashOfMetadata n (i + 1) sequence totalStakeSum
          validatorsExtendedData

/-- The function `SetLeadersSequence`: the epoch handler with `LeadersSequence` set, or
`none` when the call panics. -/
def SetLeadersSequence (ext : Externals) (state : ApprovementThreadState) (order : RangeOrder)
    (epochHandler : EpochDataHandler) (epochSeed : String) : Option EpochDataHandler :=
  let hashOfMetadataFromOldEpoch := ext.Blake3 epochSeed
  match collectValidators state epochHandler.PoolsRegistry ([], 0) with
  | none => none
  | some (validatorsExtendedData, totalStakeSum) =>
    match samplerLoop ext order hashOfMetadataFromOldEpoch epochHandler.PoolsRegistry.length 0 []
        totalStakeSum validatorsExtendedData with
    | none => none
    | some leadersSequence =>
      some ⟨epochHandler.Id, epochHandler.Hash, epochHandler.PoolsRegistry, epochHandler.Quorum,
        leadersSequence⟩

/-- The function `GetCurrentEpochQuorum`, `none` when the call panics. -/
def GetCurrentEpochQuorum (ext : Externals) (state : ApprovementThreadState)
    (order : RangeOrder) (epochHandler : EpochDataHandler) (quorumSize : Int)
    (newEpochSeed : String) : Option (List String) :=
  let totalNumberOfValidators : Int := epochHandler.PoolsRegistry.length
  if totalNumberOfValidators ≤ quorumSize then
    some epochHandler.PoolsRegistry
  else
    let hashOfMetadataFromEpoch := ext.Blake3 newEpochSeed
    match collectValidators state epochHandler.PoolsRegistry ([], 0) with
    | none => none
    | some (validatorsExtendedData, totalStakeSum) =>
      samplerLoop ext order hashOfMetadataFromEpoch quorumSize.toNat 0 [] totalStakeSum
        validatorsExtendedData

/-- The stake the samplers read for a pool (0 for a pool without storage). -/
def stakeOf (state : ApprovementThreadState) (pubKey : String) : Nat :=
  match GetFromApprovementThreadState state (pubKey ++ "(POOL)_STORAGE_POOL") with
  | some validatorData => validatorData.TotalStaked
  | none => 0

/-- Every pool of the list has an entry in the state store. -/
@[reducible] def AllStored (state : ApprovementThreadState) (registry : List String) : Prop :=
  ∀ pubKey ∈ registry,
    (GetFromApprovementThreadState state (pubKey ++ "(POOL)_STORAGE_POOL")).isSome = true

/-- The sum of the stakes of the candidates. -/
def stakeSum (m : List (String × ValidatorData)) : Int :=
  (m.map (fun entry => (entry.2.TotalStake : Int))).sum

/-- The number of candidates with a positive stake. -/
def positiveCount (m : List (String × ValidatorData)) : Nat :=
  (m.filter (fun entry => decide (0 < entry.2.TotalStake))).length

/-- The range order that visits a map in the order of its list. -/
def listOrder : RangeOrder := fun _ m => m

/-- A state store built from a list of pools with their stakes, with an empty cache. -/
def stateOf (pools : List (String × Nat)) : ApprovementThreadState where
  Cache := fun _ => none
  Storage := fun poolId =>
    (pools.find? (fun pool => pool.1 ++ "(POOL)_STORAGE_POOL" == poolId)).map
      (fun pool => ⟨pool.1, "", pool.2⟩)

/-- A block that carries one rotation proof, for leader `"b"` with `skip_index = 3`, signed
by the quorum members `"a"` and `"b"`. -/
def demoBlock : Block :=
  ⟨"c", 0, "", ⟨[("b", ⟨"f", 3, "g", [("a", "s"), ("b", "s")]⟩)]⟩⟩

/-- A concrete instance of the external functions: every signature verifies,
pubkeys are lower-cased as ASCII, the digest is constant. -/
def demoExt : Externals where
  VerifySignature := fun _ _ _ => true
  ToLower := asciiToLower
  Blake3 := fun _ => "0"
  SetString16 := fun _ => 0

/-- A two-member epoch and a finalization proof signed by both members, used to
instantiate C1. -/
def demoEpoch : EpochDataHandler := ⟨0, "h", ["a", "b"], ["a", "b"], ["a", "b"]⟩

/-! ### The extended chain validator and the block fetcher -/

/-- Modelled from the spec: the record `structures.ExecutionStatsPerPool` with the fields
`index, hash, first_block_hash`. -/
structure ExecutionStatsPerPool where
  Index : Int
  Hash : String
  FirstBlockHash : String

/-- The loop of `ExtendedCheckAlrpChainValidity`, started with the given `arrayIndexer` and
`infoAboutFinalBlocksInThisEpoch`. The result `none` is a `return false, ...` inside the
loop, otherwise the state after the loop. -/
def extendedAlrpLoop (ext : Externals)
    (aggregatedLeadersRotationProofsRef : List (String × AggregatedLeaderRotationProof))
    (epochHandler : EpochDataHandler) (dontCheckSigna : Bool) :
    List String → Nat → List (String × ExecutionStatsPerPool) →
      Option (Nat × Bool × List (String × ExecutionStatsPerPool))
  | [], arrayIndexer, infoAboutFinalBlocksInThisEpoch =>
    some (arrayIndexer, false, infoAboutFinalBlocksInThisEpoch)
  | poolPubKey :: rest, arrayIndexer, infoAboutFinalBlocksInThisEpoch =>
    match aggregatedLeadersRotationProofsRef.lookup poolPubKey with
    | some alrpForThisPool =>
      let signaIsOk := dontCheckSigna ||
        VerifyAggregatedLeaderRotationProof ext poolPubKey alrpForThisPool epochHandler
      if signaIsOk then
        let infoAboutFinalBlocksInThisEpoch := mapInsert poolPubKey
          (⟨alrpForThisPool.SkipIndex, alrpForThisPool.SkipHash,
            alrpForThisPool.FirstBlockHash⟩ : ExecutionStatsPerPool)
          infoAboutFinalBlocksInThisEpoch
        if alrpForThisPool.SkipIndex ≥ 0 then
          some (arrayIndexer + 1, true, infoAboutFinalBlocksInThisEpoch)
        else extendedAlrpLoop ext aggregatedLeadersRotationProofsRef epochHandler
          dontCheckSigna rest (arrayIndexer + 1) infoAboutFinalBlocksInThisEpoch
      else none
    | none => none

/-- The function `ExtendedCheckAlrpChainValidity`; `none` is the panic of the slice
expression, which is bounded by the capacity as in `CheckAlrpChainValidity`. -/
def ExtendedCheckAlrpChainValidity (ext : Externals) (firstBlockInThisEpochByPool : Block)
    (epochHandler : EpochDataHandler) (spareCapacity : List String) (position : Int)
    (dontCheckSigna : Bool) : Option (Bool × List (String × ExecutionStatsPerPool)) :=
  let aggregatedLeadersRotationProofsRef :=
    firstBlockInThisEpochByPool.ExtraData.AggregatedLeadersRotationProofs
  if position < 0 ∨ position > (epochHandler.LeadersSequence ++ spareCapacity).length then none
  else
    let arrayForIteration :=
      ((epochHandler.LeadersSequence ++ spareCapacity).take position.toNat).reverse
    match extendedAlrpLoop ext aggregatedLeadersRotationProofsRef epochHandler dontCheckSigna
        arrayForIteration 0 [] with
    | none => some (false, [])
    | some (arrayIndexer, bumpedWithPoolWhoCreatedAtLeastOneBlock,
        infoAboutFinalBlocksInThisEpoch) =>
      if decide ((arrayIndexer : Int) = position) || bumpedWithPoolWhoCreatedAtLeastOneBlock
      then some (true, infoAboutFinalBlocksInThisEpoch)
      else some (false, [])

/-- The leaders walked, in walking order: the given leaders up to and including the first
one whose entry has `skip_index >= 0`, or all of them when there is none. -/
def walkedLeaders (proofs : List (String × AggregatedLeaderRotationProof)) :
    List String → List String
  | [] => []
  | leader :: rest =>
    match proofs.lookup leader with
    | some alrp => if alrp.SkipIndex ≥ 0 then [leader] else leader :: walkedLeaders proofs rest
    | none => leader :: walkedLeaders proofs rest

/-- The stats entry the claims assign to a rotation proof. -/
def statsOf (alrp : AggregatedLeaderRotationProof) : ExecutionStatsPerPool :=
  ⟨alrp.SkipIndex, alrp.SkipHash, alrp.FirstBlockHash⟩

/-- The base-10 representation of an unsigned value. -/
def decimal (x : Nat) : String := toString x

/-- The block identifier computed by `GetBlock`. -/
def blockID (epochIndex : Int) (blockCreator : String) (index : Nat) : String :=
  Itoa epochIndex ++ ":" ++ blockCreator ++ ":" ++ Itoa (uintToInt index)

/-- Modelled from the spec: the configuration surface `globals.CONFIGURATION` read by
`GetBlock`, `my_hostname` and `bootstrap_nodes`. -/
structure Configuration where
  MyHostname : String
  BootstrapNodes : List String

/-- The peers and the scheduler seen by the fan-out of `GetBlock`. `Respond url` is the block
decoded from a `200` answer to `GET url` within the deadline, if there is one; `Arrival`
is the order in which the blocks sent to `resultChan` are received. -/
structure Peers where
  Respond : String → Option Block
  Arrival : List Block → List Block

/-- The function `GetQuorumUrlsAndPubkeys` as pairs `(PubKey, Url)`; reading `PoolUrl` of a
pool without storage dereferences nil, the result `none`. -/
def GetQuorumUrlsAndPubkeys (state : ApprovementThreadState)
    (epochHandler : EpochDataHandler) : Option (List (String × String)) :=
  epochHandler.Quorum.foldl
    (fun toReturn pubKey =>
      match toReturn, GetFromApprovementThreadState state (pubKey ++ "(POOL)_STORAGE_POOL") with
      | some acc, some poolStorage => some (acc ++ [(pubKey, poolStorage.PoolUrl)])
      | _, _ => none)
    (some [])

/-- The function `GetBlock`: the block returned (`none` is the nil block) together with the
URLs of the HTTP requests issued; the outer `none` is a panic. `blocks` is the store
`globals.BLOCKS`, `none` when `Get` fails. `unmarshal` is `json.Unmarshal` into the pointer
`blockParsed`: `none` when it fails, `some none` when it succeeds and leaves the pointer nil
(the JSON value `null`), `some (some b)` when it decodes the block `b`. -/
def GetBlock (blocks : String → Option (List Nat))
    (unmarshal : List Nat → Option (Option Block))
    (config : Configuration) (peers : Peers) (state : ApprovementThreadState)
    (epochIndex : Int) (blockCreator : String) (index : Nat)
    (epochHandler : EpochDataHandler) : Option (Option Block × List String) :=
  let blockID := blockID epochIndex blockCreator index
  let fanOut : Option (Option Block × List String) :=
    match GetQuorumUrlsAndPubkeys state epochHandler with
    | none => none
    | some quorumUrlsAndPubkeys =>
      let quorumUrls := quorumUrlsAndPubkeys.map (fun quorumMember => quorumMember.2)
      let allKnownNodes := quorumUrls ++ config.BootstrapNodes
      let requests := (allKnownNodes.filter (fun node => node != config.MyHostname)).map
        (fun endpoint => endpoint ++ "/block/" ++ blockID)
      let resultChan := peers.Arrival (requests.filterMap peers.Respond)
      some (resultChan.head?, requests)
  match blocks blockID with
  | some blockAsBytes =>
    match unmarshal blockAsBytes with
    | some blockParsed => some (blockParsed, [])
    | none => fanOut
  | none => fanOut

/-- The range order that visits a map in the reverse order of its list. -/
def reverseOrder : RangeOrder := fun _ m => m.reverse

/-- The epoch of the short-circuit scenario: leaders `L0, L1, L2`, quorum `a, b`. -/
def scenarioEpoch : EpochDataHandler :=
  ⟨0, "h", ["L0", "L1", "L2"], ["a", "b"], ["L0", "L1", "L2"]⟩

/-- The block of the short-circuit scenario: a rotation proof for `L1` with
`skip_index = 3` signed by `a` and `b`, and no entry for `L0`. -/
def scenarioBlock : Block :=
  ⟨"L2", 0, "", ⟨[("L1", ⟨"f", 3, "g", [("a", "s"), ("b", "s")]⟩)]⟩⟩

/-- The block of the short-circuit scenario with one more entry, for `L0`, that carries no
signature. -/
def scenarioBlockWithL0 : Block :=
  ⟨"L2", 0, "", ⟨[("L0", ⟨"f", -1, "g", []⟩), ("L1", ⟨"f", 3, "g", [("a", "s"), ("b", "s")]⟩)]⟩⟩

/-- The base-10 representation of `int(x)` for a 64-bit unsigned `x`: the unsigned decimal
below `2^63`, and a minus sign followed by the decimal of `2^64 - x` from `2^63` on. -/
def signedDecimal (x : Nat) : String :=
  if x < 2 ^ 63 then decimal x else "-" ++ decimal (2 ^ 64 - x)

/-- A decoder that reads every byte sequence as the block of the short-circuit scenario. -/
def demoUnmarshal : List Nat → Option (Option Block) := fun _ => some (some scenarioBlock)

/-- A block store that holds the bytes `[1]` under the key `0:c:9223372036854775808`, the
block id of index `2^63` in decimal, and nothing else. -/
def demoBlocksLarge : String → Option (List Nat) :=
  fun key => if key = "0:c:9223372036854775808" then some [1] else none

/-- A block whose rotation-proof map has one entry, under the empty string, with
`skip_index = 0`, signed by the quorum members `a` and `b`. -/
def phantomBlock : Block :=
  ⟨"L2", 0, "", ⟨[("", ⟨"f", 0, "g", [("a", "s"), ("b", "s")]⟩)]⟩⟩

/-- The entry of `leader` passes the test of the extended loop: it exists and either
signatures are not checked or `VerifyAggregatedLeaderRotationProof` accepts it. -/
def walkAccepted (ext : Externals) (block : Block) (eh : EpochDataHandler)
    (dontCheckSigna : Bool) (leader : String) : Bool :=
  match block.ExtraData.AggregatedLeadersRotationProofs.lookup leader with
  | some alrp => dontCheckSigna || VerifyAggregatedLeaderRotationProof ext leader alrp eh
  | none => false

/-- A block store that holds the bytes `[1]` under the key `0:c:-9223372036854775808`, the
block id that `GetBlock` computes for index `2^63`, and nothing else. -/
def demoBlocksSigned : String → Option (List Nat) :=
  fun key => if key = "0:c:-9223372036854775808" then some [1] else none

/-! ## Lemmas -/

/-! ### The counting loop of the verifiers -/

theorem mem_buildQuorumMap_aux (ext : Externals) (quorum : List String) (init : List String)
    (x : String) :
    x ∈ quorum.foldl (fun quorumMap pk => ext.ToLower pk :: quorumMap) init ↔
      x ∈ init ∨ x ∈ quorum.map ext.ToLower := by
  induction quorum generalizing init with
  | nil => simp
  | cons q qs ih =>
    simp only [List.foldl_cons, List.map_cons, List.mem_cons]
    rw [ih]
    simp only [List.mem_cons]
    tauto

theorem mem_buildQuorumMap (ext : Externals) (quorum : List String) (x : String) :
    x ∈ buildQuorumMap ext quorum ↔ x ∈ quorum.map ext.ToLower := by
  unfold buildQuorumMap
  rw [mem_buildQuorumMap_aux]
  simp

theorem acceptedSigners_cons_of_accept (ext : Externals) (data : String) (quorum : List String)
    (e : String × String) (es : List (String × String))
    (hv : ext.VerifySignature data e.1 e.2 = true)
    (hq : ext.ToLower e.1 ∈ quorum.map ext.ToLower) :
    acceptedSigners ext data quorum (e :: es) =
      insert (ext.ToLower e.1) (acceptedSigners ext data quorum es) := by
  have hc : acceptsEntry ext data quorum e = true := by
    unfold acceptsEntry
    rw [hv, decide_eq_true hq]; rfl
  unfold acceptedSigners
  rw [List.filter_cons_of_pos hc, List.map_cons, List.toFinset_cons]

theorem acceptedSigners_cons_of_reject (ext : Externals) (data : String) (quorum : List String)
    (e : String × String) (es : List (String × String))
    (h : ¬ (ext.VerifySignature data e.1 e.2 = true ∧
      ext.ToLower e.1 ∈ quorum.map ext.ToLower)) :
    acceptedSigners ext data quorum (e :: es) = acceptedSigners ext data quorum es := by
  have hc : ¬ (acceptsEntry ext data quorum e = true) := by
    intro hc
    unfold acceptsEntry at hc
    rw [Bool.and_eq_true, decide_eq_true_eq] at hc
    exact h hc
  unfold acceptedSigners
  rw [List.filter_cons_of_neg hc]

/-- The loop keeps `seen` duplicate free, keeps `okSignatures = len(seen)`, and adds to
`seen` exactly the accepted lower-cased pubkeys. -/
theorem countLoop_invariant (ext : Externals) (data : String) (quorum : List String)
    (proofs : List (String × String)) (st : List String × Nat)
    (hnd : st.1.Nodup) (hlen : st.2 = st.1.length) :
    (proofs.foldl (countStep ext data (buildQuorumMap ext quorum)) st).1.Nodup ∧
    (proofs.foldl (countStep ext data (buildQuorumMap ext quorum)) st).2 =
      (proofs.foldl (countStep ext data (buildQuorumMap ext quorum)) st).1.length ∧
    (proofs.foldl (countStep ext data (buildQuorumMap ext quorum)) st).1.toFinset =
      st.1.toFinset ∪ acceptedSigners ext data quorum proofs := by
  induction proofs generalizing st with
  | nil =>
    refine ⟨hnd, hlen, ?_⟩
    simp [acceptedSigners]
  | cons e es ih =>
    simp only [List.foldl_cons]
    by_cases hacc : ext.VerifySignature data e.1 e.2 = true ∧
        ext.ToLower e.1 ∈ quorum.map ext.ToLower
    · obtain ⟨hv, hq⟩ := hacc
      have hq2 : ext.ToLower e.1 ∈ buildQuorumMap ext quorum :=
        (mem_buildQuorumMap ext quorum _).2 hq
      rw [acceptedSigners_cons_of_accept ext data quorum e es hv hq]
      by_cases hs : ext.ToLower e.1 ∈ st.1
      · have hstep : countStep ext data (buildQuorumMap ext quorum) st e = st := by
          simp [countStep, hv, hs]
        rw [hstep]
        obtain ⟨h1, h2, h3⟩ := ih st hnd hlen
        refine ⟨h1, h2, ?_⟩
        rw [h3]
        ext x
        simp only [Finset.mem_union, Finset.mem_insert, List.mem_toFinset]
        constructor
        · rintro (h | h)
          · exact Or.inl h
          · exact Or.inr (Or.inr h)
        · rintro (h | h | h)
          · exact Or.inl h
          · exact Or.inl (h ▸ hs)
          · exact Or.inr h
      · have hstep : countStep ext data (buildQuorumMap ext quorum) st e =
            (ext.ToLower e.1 :: st.1, st.2 + 1) := by
          simp [countStep, hv, hs, hq2]
        rw [hstep]
        obtain ⟨h1, h2, h3⟩ := ih (ext.ToLower e.1 :: st.1, st.2 + 1)
          (List.nodup_cons.2 ⟨hs, hnd⟩) (by simp [hlen])
        refine ⟨h1, h2, ?_⟩
        rw [h3]
        ext x
        simp only [List.toFinset_cons, Finset.mem_union, Finset.mem_insert, List.mem_toFinset]
        tauto
    · have hstep : countStep ext data (buildQuorumMap ext quorum) st e = st := by
        unfold countStep
        by_cases hv : ext.VerifySignature data e.1 e.2 = true
        · have hq2 : ext.ToLower e.1 ∉ buildQuorumMap ext quorum :=
            fun h => hacc ⟨hv, (mem_buildQuorumMap ext quorum _).1 h⟩
          simp [hq2]
        · simp [hv]
      rw [hstep, acceptedSigners_cons_of_reject ext data quorum e es hacc]
      exact ih st hnd hlen

/-- The count of the loop is the number of accepted signers. -/
theorem okSignatures_eq_card (ext : Externals) (data : String) (quorum : List String)
    (proofs : List (String × String)) :
    okSignatures ext data quorum proofs = (acceptedSigners ext data quorum proofs).card := by
  obtain ⟨h1, h2, h3⟩ := countLoop_invariant ext data quorum proofs ([], 0) List.nodup_nil rfl
  unfold okSignatures
  rw [h2, ← List.toFinset_card_of_nodup h1, h3]
  simp

/-- The accepted signers do not depend on the order of the entries. -/
theorem acceptedSigners_perm (ext : Externals) (data : String) (quorum : List String)
    {p₁ p₂ : List (String × String)} (h : p₁.Perm p₂) :
    acceptedSigners ext data quorum p₁ = acceptedSigners ext data quorum p₂ := by
  unfold acceptedSigners
  exact List.toFinset_eq_of_perm _ _ ((h.filter _).map _)

theorem okSignatures_perm (ext : Externals) (data : String) (quorum : List String)
    {p₁ p₂ : List (String × String)} (h : p₁.Perm p₂) :
    okSignatures ext data quorum p₁ = okSignatures ext data quorum p₂ := by
  rw [okSignatures_eq_card, okSignatures_eq_card, acceptedSigners_perm ext data quorum h]

theorem acceptedSigners_cons_subset (ext : Externals) (data : String) (quorum : List String)
    (e : String × String) (es : List (String × String)) :
    acceptedSigners ext data quorum es ⊆ acceptedSigners ext data quorum (e :: es) ∧
    (acceptedSigners ext data quorum (e :: es)).card ≤
      (acceptedSigners ext data quorum es).card + 1 := by
  by_cases hacc : ext.VerifySignature data e.1 e.2 = true ∧
      ext.ToLower e.1 ∈ quorum.map ext.ToLower
  · rw [acceptedSigners_cons_of_accept ext data quorum e es hacc.1 hacc.2]
    exact ⟨Finset.subset_insert _ _, Finset.card_insert_le _ _⟩
  · rw [acceptedSigners_cons_of_reject ext data quorum e es hacc]
    exact ⟨Finset.Subset.refl _, Nat.le_succ _⟩

theorem mem_mapDelete {V : Type} (key : String) (m : List (String × V)) (e : String × V) :
    e ∈ mapDelete key m ↔ e ∈ m ∧ e.1 ≠ key := by
  simp [mapDelete]

theorem mem_acceptedSigners (ext : Externals) (data : String) (quorum : List String)
    (es : List (String × String)) (x : String) :
    x ∈ acceptedSigners ext data quorum es ↔
      ∃ e ∈ es, (ext.VerifySignature data e.1 e.2 = true ∧
        ext.ToLower e.1 ∈ quorum.map ext.ToLower) ∧ ext.ToLower e.1 = x := by
  unfold acceptedSigners
  rw [List.mem_toFinset, List.mem_map]
  constructor
  · rintro ⟨e, he, rfl⟩
    rw [List.mem_filter] at he
    refine ⟨e, he.1, ?_, rfl⟩
    have h := he.2
    unfold acceptsEntry at h
    rw [Bool.and_eq_true, decide_eq_true_eq] at h
    exact h
  · rintro ⟨e, he, ⟨hv, hq⟩, rfl⟩
    refine ⟨e, List.mem_filter.2 ⟨he, ?_⟩, rfl⟩
    unfold acceptsEntry
    rw [hv, decide_eq_true hq]; rfl

/-- Deleting a key removes at most the lower-case form of that key from the signers. -/
theorem acceptedSigners_mapDelete (ext : Externals) (data : String) (quorum : List String)
    (key : String) (es : List (String × String)) :
    acceptedSigners ext data quorum (mapDelete key es) ⊆ acceptedSigners ext data quorum es ∧
    acceptedSigners ext data quorum es ⊆
      insert (ext.ToLower key) (acceptedSigners ext data quorum (mapDelete key es)) := by
  constructor
  · intro x hx
    rw [mem_acceptedSigners] at hx ⊢
    obtain ⟨e, he, hacc, hx⟩ := hx
    exact ⟨e, ((mem_mapDelete key es e).1 he).1, hacc, hx⟩
  · intro x hx
    rw [Finset.mem_insert, mem_acceptedSigners]
    rw [mem_acceptedSigners] at hx
    obtain ⟨e, he, hacc, hx⟩ := hx
    by_cases hk : e.1 = key
    · left
      rw [← hx, hk]
    · right
      exact ⟨e, (mem_mapDelete key es e).2 ⟨he, hk⟩, hacc, hx⟩

/-- Deleting a key whose lower-case form is outside the lower-cased quorum leaves the
accepted signers unchanged. -/
theorem acceptedSigners_mapDelete_of_reject (ext : Externals) (data : String)
    (quorum : List String) (key : String) (es : List (String × String))
    (h : ext.ToLower key ∉ quorum.map ext.ToLower) :
    acceptedSigners ext data quorum (mapDelete key es) = acceptedSigners ext data quorum es := by
  refine Finset.Subset.antisymm (acceptedSigners_mapDelete ext data quorum key es).1 ?_
  intro x hx
  rw [mem_acceptedSigners] at hx ⊢
  obtain ⟨e, he, hacc, hx⟩ := hx
  refine ⟨e, (mem_mapDelete key es e).2 ⟨he, ?_⟩, hacc, hx⟩
  intro hk
  exact h (hk ▸ hacc.2)

/-! ### The walk of the ALRP chain validator -/

/-- The loop ends in a state that passes the final test exactly when all its leaders have
an accepted entry, or an accepted producer is reached through accepted entries. -/
theorem alrpLoop_passes_iff (ext : Externals) (block : Block) (eh : EpochDataHandler)
    (l : List String) (idx : Nat) :
    (∃ i b, alrpLoop ext block.ExtraData.AggregatedLeadersRotationProofs eh l idx = some (i, b) ∧
        (i = idx + l.length ∨ b = true)) ↔
      ((∀ q ∈ l, acceptedAlrp ext block eh q = true) ∨
        ∃ pre p post, l = pre ++ p :: post ∧ acceptedProducer ext block eh p = true ∧
          ∀ q ∈ pre, acceptedAlrp ext block eh q = true) := by
  induction l generalizing idx with
  | nil => simp [alrpLoop]
  | cons q rest ih =>
    cases hlk : block.ExtraData.AggregatedLeadersRotationProofs.lookup q with
    | none =>
      have hA : acceptedAlrp ext block eh q = false := by simp [acceptedAlrp, hlk]
      have hS : acceptedProducer ext block eh q = false := by simp [acceptedProducer, hlk]
      constructor
      · rintro ⟨i, b, h, _⟩
        simp [alrpLoop, hlk] at h
      · rintro (h | ⟨pre, p, post, hl, hp, hpre⟩)
        · have := h q (List.mem_cons_self _ _)
          rw [hA] at this; cases this
        · cases pre with
          | nil =>
            simp only [List.nil_append, List.cons.injEq] at hl
            rw [← hl.1, hS] at hp; cases hp
          | cons x pre' =>
            simp only [List.cons_append, List.cons.injEq] at hl
            have := hpre x (List.mem_cons_self _ _)
            rw [← hl.1, hA] at this; cases this
    | some alrp =>
      by_cases hv : VerifyAggregatedLeaderRotationProof ext q alrp eh = true
      · have hA : acceptedAlrp ext block eh q = true := by simp [acceptedAlrp, hlk, hv]
        by_cases hs : alrp.SkipIndex ≥ 0
        · have hS : acceptedProducer ext block eh q = true := by
            simp [acceptedProducer, hlk, hv, hs]
          constructor
          · intro _
            exact Or.inr ⟨[], q, rest, rfl, hS, by simp⟩
          · intro _
            exact ⟨idx + 1, true, by simp [alrpLoop, hlk, hv, hs], Or.inr rfl⟩
        · have hS : acceptedProducer ext block eh q = false := by
            simp [acceptedProducer, hlk, hv, hs]
          have hstep : alrpLoop ext block.ExtraData.AggregatedLeadersRotationProofs eh
              (q :: rest) idx =
              alrpLoop ext block.ExtraData.AggregatedLeadersRotationProofs eh rest (idx + 1) := by
            simp [alrpLoop, hlk, hv, hs]
          rw [hstep]
          have hlen : idx + (q :: rest).length = idx + 1 + rest.length := by
            simp only [List.length_cons]; omega
          rw [hlen, ih (idx + 1)]
          constructor
          · rintro (h | ⟨pre, p, post, hl, hp, hpre⟩)
            · left
              intro x hx
              rcases List.mem_cons.1 hx with rfl | hx
              · exact hA
              · exact h x hx
            · right
              refine ⟨q :: pre, p, post, by simp [hl], hp, ?_⟩
              intro x hx
              rcases List.mem_cons.1 hx with rfl | hx
              · exact hA
              · exact hpre x hx
          · rintro (h | ⟨pre, p, post, hl, hp, hpre⟩)
            · left
              intro x hx
              exact h x (List.mem_cons_of_mem _ hx)
            · cases pre with
              | nil =>
                simp only [List.nil_append, List.cons.injEq] at hl
                rw [← hl.1, hS] at hp; cases hp
              | cons x pre' =>
                simp only [List.cons_append, List.cons.injEq] at hl
                right
                exact ⟨pre', p, post, hl.2, hp,
                  fun y hy => hpre y (List.mem_cons_of_mem _ hy)⟩
      · have hA : acceptedAlrp ext block eh q = false := by simp [acceptedAlrp, hlk, hv]
        have hS : acceptedProducer ext block eh q = false := by
          simp [acceptedProducer, hlk, hv]
        constructor
        · rintro ⟨i, b, h, _⟩
          simp [alrpLoop, hlk, hv] at h
        · rintro (h | ⟨pre, p, post, hl, hp, hpre⟩)
          · have := h q (List.mem_cons_self _ _)
            rw [hA] at this; cases this
          · cases pre with
            | nil =>
              simp only [List.nil_append, List.cons.injEq] at hl
              rw [← hl.1, hS] at hp; cases hp
            | cons x pre' =>
              simp only [List.cons_append, List.cons.injEq] at hl
              have := hpre x (List.mem_cons_self _ _)
              rw [← hl.1, hA] at this; cases this

/-- The condition of the walk, read on the reversed prefix and on the prefix itself. -/
theorem chain_condition_reverse (A S : String → Bool) (pfx : List String) :
    ((∀ q ∈ pfx.reverse, A q = true) ∨
        ∃ pre p post, pfx.reverse = pre ++ p :: post ∧ S p = true ∧ ∀ q ∈ pre, A q = true) ↔
      ((∀ q ∈ pfx, A q = true) ∨
        ∃ earlier p later, pfx = earlier ++ p :: later ∧ S p = true ∧
          ∀ q ∈ later, A q = true) := by
  constructor
  · rintro (h | ⟨pre, p, post, hl, hp, hpre⟩)
    · exact Or.inl fun q hq => h q (List.mem_reverse.2 hq)
    · right
      refine ⟨post.reverse, p, pre.reverse, ?_, hp, fun q hq => hpre q (List.mem_reverse.1 hq)⟩
      have := congrArg List.reverse hl
      simpa using this
  · rintro (h | ⟨earlier, p, later, hl, hp, hlater⟩)
    · exact Or.inl fun q hq => h q (List.mem_reverse.1 hq)
    · right
      refine ⟨later.reverse, p, earlier.reverse, ?_, hp,
        fun q hq => hlater q (List.mem_reverse.1 hq)⟩
      rw [hl]
      simp

/-! ### The samplers -/

theorem mapDelete_of_not_mem {V : Type} (key : String) (m : List (String × V))
    (h : key ∉ m.map Prod.fst) : mapDelete key m = m := by
  unfold mapDelete
  rw [List.filter_eq_self]
  intro e he
  have hne : e.1 ≠ key := fun heq => h (heq ▸ List.mem_map_of_mem Prod.fst he)
  simpa using hne

theorem nodupKeys_mapDelete {V : Type} (key : String) (m : List (String × V))
    (h : NodupKeys m) : NodupKeys (mapDelete key m) := by
  unfold NodupKeys mapDelete at *
  exact h.sublist ((List.filter_sublist m).map Prod.fst)

theorem not_mem_keys_mapDelete {V : Type} (key : String) (m : List (String × V)) :
    key ∉ (mapDelete key m).map Prod.fst := by
  intro h
  obtain ⟨e, he, hk⟩ := List.mem_map.1 h
  exact ((mem_mapDelete key m e).1 he).2 hk

/-- In a map, deleting the key of an entry removes exactly that entry. -/
theorem perm_cons_mapDelete {V : Type} (m : List (String × V)) (e : String × V)
    (hnd : NodupKeys m) (he : e ∈ m) : m.Perm (e :: mapDelete e.1 m) := by
  induction m with
  | nil => cases he
  | cons x xs ih =>
    have hx : x.1 ∉ xs.map Prod.fst := (List.nodup_cons.1 hnd).1
    have hxs : NodupKeys xs := (List.nodup_cons.1 hnd).2
    rcases List.mem_cons.1 he with rfl | he'
    · have h1 : mapDelete e.1 (e :: xs) = mapDelete e.1 xs := by
        simp [mapDelete]
      rw [h1, mapDelete_of_not_mem e.1 xs hx]
    · have hne : x.1 ≠ e.1 := fun heq => hx (heq ▸ List.mem_map_of_mem Prod.fst he')
      have h1 : mapDelete e.1 (x :: xs) = x :: mapDelete e.1 xs := by
        simp [mapDelete, hne]
      rw [h1]
      exact ((ih hxs he').cons x).trans (List.Perm.swap e x _)

theorem stakeSum_perm {m₁ m₂ : List (String × ValidatorData)} (h : m₁.Perm m₂) :
    stakeSum m₁ = stakeSum m₂ := by
  unfold stakeSum
  exact (h.map _).sum_eq

theorem positiveCount_perm {m₁ m₂ : List (String × ValidatorData)} (h : m₁.Perm m₂) :
    positiveCount m₁ = positiveCount m₂ := by
  unfold positiveCount
  exact (h.filter _).length_eq

theorem stakeSum_cons (e : String × ValidatorData) (m : List (String × ValidatorData)) :
    stakeSum (e :: m) = (e.2.TotalStake : Int) + stakeSum m := by
  simp [stakeSum]

theorem stakeSum_nonneg (m : List (String × ValidatorData)) : 0 ≤ stakeSum m := by
  induction m with
  | nil => simp [stakeSum]
  | cons e es ih => rw [stakeSum_cons]; omega

theorem positiveCount_cons_le (e : String × ValidatorData) (m : List (String × ValidatorData)) :
    positiveCount (e :: m) ≤ positiveCount m + 1 := by
  unfold positiveCount
  rw [List.filter_cons]
  split <;> simp

theorem stakeSum_pos_of_positiveCount (m : List (String × ValidatorData))
    (h : 1 ≤ positiveCount m) : 0 < stakeSum m := by
  induction m with
  | nil => simp [positiveCount] at h
  | cons e es ih =>
    rw [stakeSum_cons]
    have hnn := stakeSum_nonneg es
    by_cases hp : 0 < e.2.TotalStake
    · omega
    · have : positiveCount (e :: es) = positiveCount es := by
        unfold positiveCount
        rw [List.filter_cons_of_neg (by simpa using hp)]
      rw [this] at h
      have := ih h
      omega

/-- The inner loop breaks at a candidate of the map. -/
theorem pickValidator_mem (r : Int) (l : List (String × ValidatorData)) (c : Int)
    (e : String × ValidatorData) (h : pickValidator r l c = some e) : e ∈ l := by
  induction l generalizing c with
  | nil => simp [pickValidator] at h
  | cons x xs ih =>
    obtain ⟨k, v⟩ := x
    simp only [pickValidator] at h
    split at h
    · simp only [Option.some.injEq] at h
      rw [← h]; exact List.mem_cons_self _ _
    · exact List.mem_cons_of_mem _ (ih _ h)

/-- The inner loop breaks when the draw does not exceed the total cumulative stake. -/
theorem pickValidator_isSome (r : Int) (l : List (String × ValidatorData)) (c : Int)
    (hne : l ≠ []) (h : r ≤ c + stakeSum l) : ∃ e, pickValidator r l c = some e := by
  induction l generalizing c with
  | nil => exact absurd rfl hne
  | cons x xs ih =>
    obtain ⟨k, v⟩ := x
    rw [stakeSum_cons] at h
    simp only [pickValidator]
    by_cases hr : r ≤ c + (v.TotalStake : Int)
    · exact ⟨(k, v), by simp [hr]⟩
    · simp only [hr, if_false]
      have hxs : xs ≠ [] := by
        rintro rfl
        simp [stakeSum] at h
        exact hr h
      exact ih (c + (v.TotalStake : Int)) hxs (by simp only at h; omega)

/-- The entry the first loop stores for a pool. -/
theorem collectValidators_eq (state : ApprovementThreadState) (rest : List String)
    (m : List (String × ValidatorData)) (total : Int)
    (hstored : AllStored state rest) (hnd : rest.Nodup)
    (hdisj : ∀ pk ∈ rest, pk ∉ m.map Prod.fst) :
    collectValidators state rest (m, total) =
      some (m ++ rest.map (fun pk => (pk, (⟨pk, stakeOf state pk⟩ : ValidatorData))),
        total + stakeSum (rest.map (fun pk => (pk, (⟨pk, stakeOf state pk⟩ : ValidatorData))))) := by
  induction rest generalizing m total with
  | nil => simp [collectValidators, stakeSum]
  | cons pk rest ih =>
    have hs := hstored pk (List.mem_cons_self _ _)
    cases hget : GetFromApprovementThreadState state (pk ++ "(POOL)_STORAGE_POOL") with
    | none => rw [hget] at hs; cases hs
    | some d =>
      have hstake : stakeOf state pk = d.TotalStaked := by simp [stakeOf, hget]
      have hins : mapInsert pk (⟨pk, d.TotalStaked⟩ : ValidatorData) m =
          m ++ [(pk, ⟨pk, d.TotalStaked⟩)] := by
        unfold mapInsert
        rw [mapDelete_of_not_mem pk m (hdisj pk (List.mem_cons_self _ _))]
      simp only [collectValidators, hget, hins]
      rw [ih _ _ (fun q hq => hstored q (List.mem_cons_of_mem _ hq)) (List.nodup_cons.1 hnd).2]
      · simp only [List.map_cons, stakeSum_cons, hstake, List.append_assoc, List.singleton_append,
          Option.some.injEq, Prod.mk.injEq, true_and]
        omega
      · intro q hq hmem
        rw [List.map_append, List.mem_append] at hmem
        rcases hmem with hmem | hmem
        · exact hdisj q (List.mem_cons_of_mem _ hq) hmem
        · simp only [List.map_cons, List.map_nil, List.mem_singleton] at hmem
          exact (List.nodup_cons.1 hnd).1 (hmem ▸ hq)

/-- The first loop completes only when every pool has storage. -/
theorem allStored_of_collectValidators (state : ApprovementThreadState) (rest : List String)
    (acc out : List (String × ValidatorData) × Int)
    (h : collectValidators state rest acc = some out) : AllStored state rest := by
  induction rest generalizing acc with
  | nil => intro pk hpk; cases hpk
  | cons pk rest ih =>
    obtain ⟨m, total⟩ := acc
    cases hget : GetFromApprovementThreadState state (pk ++ "(POOL)_STORAGE_POOL") with
    | none => simp [collectValidators, hget] at h
    | some d =>
      simp only [collectValidators, hget] at h
      intro q hq
      rcases List.mem_cons.1 hq with rfl | hq
      · rw [hget]; rfl
      · exact ih _ h q hq

/-- One iteration of the outer loop with a positive `totalStakeSum`: the inner loop breaks
at an entry of the map, and deleting it keeps the loop invariant. -/
theorem sampler_iteration (order : RangeOrder) (horder : order.Valid) (i : Nat) (x : Int)
    (total : Int) (m : List (String × ValidatorData)) (hnd : NodupKeys m)
    (htotal : total = stakeSum m) (hpos : total ≠ 0) :
    ∃ pk v, pickValidator (x % total) (order i m) 0 = some (pk, v) ∧ (pk, v) ∈ m ∧
      NodupKeys (mapDelete pk m) ∧ total - (v.TotalStake : Int) = stakeSum (mapDelete pk m) ∧
      positiveCount m ≤ positiveCount (mapDelete pk m) + 1 ∧
      pk ∉ (mapDelete pk m).map Prod.fst ∧
      (∀ q ∈ (mapDelete pk m).map Prod.fst, q ∈ m.map Prod.fst) := by
  have hnn := stakeSum_nonneg m
  have hT : 0 < total := by omega
  have hsum : stakeSum (order i m) = total := by rw [stakeSum_perm (horder i m), htotal]
  have hne : order i m ≠ [] := by
    intro h
    rw [h] at hsum
    simp [stakeSum] at hsum
    omega
  have hlt : x % total < total := Int.emod_lt_of_pos x hT
  obtain ⟨e, he⟩ := pickValidator_isSome (x % total) (order i m) 0 hne (by omega)
  obtain ⟨pk, v⟩ := e
  have hmem : (pk, v) ∈ m := (horder i m).mem_iff.1 (pickValidator_mem _ _ _ _ he)
  have hperm := perm_cons_mapDelete m (pk, v) hnd hmem
  refine ⟨pk, v, he, hmem, nodupKeys_mapDelete pk m hnd, ?_, ?_, not_mem_keys_mapDelete pk m, ?_⟩
  · have := stakeSum_perm hperm
    rw [stakeSum_cons] at this
    simp only at this
    omega
  · rw [positiveCount_perm hperm]
    exact positiveCount_cons_le _ _
  · intro q hq
    obtain ⟨e, he, hk⟩ := List.mem_map.1 hq
    exact hk ▸ List.mem_map_of_mem Prod.fst ((mem_mapDelete pk m e).1 he).1

/-- When the outer loop completes, each of its `n` iterations has appended one candidate:
the pubkeys appended are pairwise distinct keys of the map. -/
theorem samplerLoop_result (ext : Externals) (order : RangeOrder) (horder : order.Valid)
    (hash : String) (n i : Nat) (sequence : List String) (total : Int)
    (m : List (String × ValidatorData)) (out : List String) (hnd : NodupKeys m)
    (htotal : total = stakeSum m)
    (h : samplerLoop ext order hash n i sequence total m = some out) :
    ∃ picked, out = sequence ++ picked ∧ picked.length = n ∧ picked.Nodup ∧
      ∀ pk ∈ picked, pk ∈ m.map Prod.fst := by
  induction n generalizing i sequence total m with
  | zero =>
    simp only [samplerLoop, Option.some.injEq] at h
    exact ⟨[], by simp [h], rfl, List.nodup_nil, by simp⟩
  | succ n ih =>
    by_cases hz : total = 0
    · simp [samplerLoop, hz] at h
    · obtain ⟨pk, v, hpick, hmem, hnd', hsum', _, hnot, hsub⟩ :=
        sampler_iteration order horder i
          (ext.SetString16 (ext.Blake3 (hash ++ "_" ++ Itoa i)) : Int) total m hnd htotal hz
      simp only [samplerLoop, hz, if_false, hpick] at h
      obtain ⟨picked, hout, hlen, hpnd, hpsub⟩ := ih (i + 1) _ _ _ hnd' hsum' h
      refine ⟨pk :: picked, ?_, by simp [hlen], ?_, ?_⟩
      · rw [hout]; simp
      · exact List.nodup_cons.2 ⟨fun hin => hnot (hpsub pk hin), hpnd⟩
      · intro q hq
        rcases List.mem_cons.1 hq with rfl | hq
        · exact List.mem_map_of_mem Prod.fst hmem
        · exact hsub q (hpsub q hq)

/-- The outer loop completes when at least `n` candidates have a positive stake. -/
theorem samplerLoop_isSome (ext : Externals) (order : RangeOrder) (horder : order.Valid)
    (hash : String) (n i : Nat) (sequence : List String) (total : Int)
    (m : List (String × ValidatorData)) (hnd : NodupKeys m) (htotal : total = stakeSum m)
    (hcount : n ≤ positiveCount m) :
    ∃ out, samplerLoop ext order hash n i sequence total m = some out := by
  induction n generalizing i sequence total m with
  | zero => exact ⟨sequence, rfl⟩
  | succ n ih =>
    have hz : total ≠ 0 := by
      have := stakeSum_pos_of_positiveCount m (by omega)
      omega
    obtain ⟨pk, v, hpick, _, hnd', hsum', hcnt, _, _⟩ :=
      sampler_iteration order horder i
        (ext.SetString16 (ext.Blake3 (hash ++ "_" ++ Itoa i)) : Int) total m hnd htotal hz
    simp only [samplerLoop, hz, if_false, hpick]
    exact ih (i + 1) _ _ _ hnd' hsum' (by omega)

/-- The outer loop panics when an iteration starts with `totalStakeSum = 0`. -/
theorem samplerLoop_zero_total (ext : Externals) (order : RangeOrder) (hash : String)
    (n i : Nat) (sequence : List String) (m : List (String × ValidatorData)) :
    samplerLoop ext order hash (n + 1) i sequence 0 m = none := by
  simp [samplerLoop]

/-- The map built by the first loop from a registry with distinct keys. -/
theorem collectValidators_registry (state : ApprovementThreadState) (registry : List String)
    (hstored : AllStored state registry) (hnd : registry.Nodup) :
    ∃ m, collectValidators state registry ([], 0) = some (m, stakeSum m) ∧ NodupKeys m ∧
      m.map Prod.fst = registry ∧
      positiveCount m = (registry.filter (fun pk => decide (0 < stakeOf state pk))).length ∧
      (registry ≠ [] → (∀ pk ∈ registry, stakeOf state pk = 0) → stakeSum m = 0) := by
  have hkeys : (registry.map (fun pk => (pk, (⟨pk, stakeOf state pk⟩ : ValidatorData)))).map
      Prod.fst = registry := by
    rw [List.map_map]
    exact List.map_id _
  refine ⟨registry.map (fun pk => (pk, (⟨pk, stakeOf state pk⟩ : ValidatorData))), ?_, ?_, hkeys,
    ?_, ?_⟩
  · rw [collectValidators_eq state registry [] 0 hstored hnd (by simp)]
    simp
  · unfold NodupKeys
    rw [hkeys]; exact hnd
  · unfold positiveCount
    rw [List.filter_map, List.length_map]
    rfl
  · intro _ hzero
    unfold stakeSum
    rw [List.map_map]
    apply List.sum_eq_zero
    intro x hx
    obtain ⟨pk, hpk, rfl⟩ := List.mem_map.1 hx
    simp [hzero pk hpk]

/-! ### Lookups in maps and the extended walk -/

theorem lookup_mapDelete_ne {V : Type} (key k : String) (m : List (String × V))
    (h : k ≠ key) : (mapDelete key m).lookup k = m.lookup k := by
  induction m with
  | nil => rfl
  | cons x xs ih =>
    obtain ⟨a, b⟩ := x
    by_cases ha : a = key
    · have h1 : mapDelete key ((a, b) :: xs) = mapDelete key xs := by
        simp [mapDelete, ha]
      have h2 : (k == a) = false := by simpa [ha] using h
      rw [h1, ih, List.lookup_cons, h2]
    · have h1 : mapDelete key ((a, b) :: xs) = (a, b) :: mapDelete key xs := by
        simp [mapDelete, ha]
      rw [h1, List.lookup_cons, List.lookup_cons, ih]

theorem lookup_append_singleton {V : Type} (m : List (String × V)) (key k : String) (v : V) :
    (m ++ [(key, v)]).lookup k =
      match m.lookup k with
      | some w => some w
      | none => if k = key then some v else none := by
  induction m with
  | nil =>
    by_cases h : k = key
    · simp [List.lookup_cons, h]
    · have h2 : (k == key) = false := by simpa using h
      simp [List.lookup_cons, h, h2]
  | cons x xs ih =>
    obtain ⟨a, b⟩ := x
    by_cases h : k = a
    · simp [List.lookup_cons, h]
    · have h2 : (k == a) = false := by simpa using h
      simp only [List.cons_append, List.lookup_cons, h2]
      exact ih

theorem lookup_mapDelete_self {V : Type} (key : String) (m : List (String × V)) :
    (mapDelete key m).lookup key = none := by
  induction m with
  | nil => rfl
  | cons x xs ih =>
    obtain ⟨a, b⟩ := x
    by_cases ha : a = key
    · have h1 : mapDelete key ((a, b) :: xs) = mapDelete key xs := by
        simp [mapDelete, ha]
      rw [h1, ih]
    · have h1 : mapDelete key ((a, b) :: xs) = (a, b) :: mapDelete key xs := by
        simp [mapDelete, ha]
      have h2 : (key == a) = false := by simpa using (Ne.symm ha)
      rw [h1, List.lookup_cons, h2, ih]

/-- Reading a map after `m[key] = value`. -/
theorem lookup_mapInsert {V : Type} (key k : String) (v : V) (m : List (String × V)) :
    (mapInsert key v m).lookup k = if k = key then some v else m.lookup k := by
  unfold mapInsert
  rw [lookup_append_singleton]
  by_cases h : k = key
  · subst h
    simp [lookup_mapDelete_self]
  · rw [lookup_mapDelete_ne key k m h]
    simp only [h, if_false]
    cases m.lookup k <;> rfl

theorem nodupKeys_mapInsert {V : Type} (key : String) (v : V) (m : List (String × V))
    (h : NodupKeys m) : NodupKeys (mapInsert key v m) := by
  have h1 := nodupKeys_mapDelete key m h
  have h2 := not_mem_keys_mapDelete key m
  unfold NodupKeys mapInsert at *
  rw [List.map_append, List.nodup_append]
  refine ⟨h1, by simp, ?_⟩
  intro a ha hb
  simp only [List.map_cons, List.map_nil, List.mem_singleton] at hb
  exact h2 (hb ▸ ha)

/-- A key belongs to a map exactly when reading it succeeds. -/
theorem mem_keys_iff_lookup {V : Type} (k : String) (m : List (String × V)) :
    k ∈ m.map Prod.fst ↔ (m.lookup k).isSome = true := by
  induction m with
  | nil => simp
  | cons x xs ih =>
    obtain ⟨a, b⟩ := x
    by_cases h : k = a
    · simp [List.lookup_cons, h]
    · have h2 : (k == a) = false := by simpa using h
      simp only [List.map_cons, List.mem_cons, h, false_or, List.lookup_cons, h2]
      exact ih

/-- With signatures checked, the extended loop walks as the loop of
`CheckAlrpChainValidity`. -/
theorem extendedAlrpLoop_false (ext : Externals)
    (ref : List (String × AggregatedLeaderRotationProof)) (eh : EpochDataHandler)
    (l : List String) (idx : Nat) (info : List (String × ExecutionStatsPerPool)) :
    (extendedAlrpLoop ext ref eh false l idx info).map (fun r => (r.1, r.2.1)) =
      alrpLoop ext ref eh l idx := by
  induction l generalizing idx info with
  | nil => rfl
  | cons q rest ih =>
    cases hlk : ref.lookup q with
    | none => simp [extendedAlrpLoop, alrpLoop, hlk]
    | some alrp =>
      by_cases hv : VerifyAggregatedLeaderRotationProof ext q alrp eh = true
      · by_cases hs : alrp.SkipIndex ≥ 0
        · simp [extendedAlrpLoop, alrpLoop, hlk, hv, hs]
        · simp only [extendedAlrpLoop, alrpLoop, hlk, hv, hs, Bool.false_or, if_true, if_false]
          exact ih _ _
      · simp [extendedAlrpLoop, alrpLoop, hlk, hv]

/-- When the extended loop does not return false, its final state passes the test after
the loop, and the stats map holds, for exactly the leaders walked, the stats of their
entries, on top of what it held before. -/
theorem extendedAlrpLoop_stats (ext : Externals)
    (ref : List (String × AggregatedLeaderRotationProof)) (eh : EpochDataHandler)
    (d : Bool) (l : List String) (idx : Nat) (info : List (String × ExecutionStatsPerPool))
    (i : Nat) (b : Bool) (stats : List (String × ExecutionStatsPerPool))
    (h : extendedAlrpLoop ext ref eh d l idx info = some (i, b, stats)) :
    (i = idx + l.length ∨ b = true) ∧
    (∀ k, stats.lookup k =
      if k ∈ walkedLeaders ref l then (ref.lookup k).map statsOf else info.lookup k) ∧
    (∀ k ∈ walkedLeaders ref l, (ref.lookup k).isSome = true) ∧
    (NodupKeys info → NodupKeys stats) := by
  induction l generalizing idx info with
  | nil =>
    simp only [extendedAlrpLoop, Option.some.injEq, Prod.mk.injEq] at h
    obtain ⟨rfl, rfl, rfl⟩ := h
    simp [walkedLeaders]
  | cons q rest ih =>
    cases hlk : ref.lookup q with
    | none => simp [extendedAlrpLoop, hlk] at h
    | some alrp =>
      by_cases hok : (d || VerifyAggregatedLeaderRotationProof ext q alrp eh) = true
      · by_cases hs : alrp.SkipIndex ≥ 0
        · simp only [extendedAlrpLoop, hlk, hok, hs, if_true, Option.some.injEq,
            Prod.mk.injEq] at h
          obtain ⟨rfl, rfl, rfl⟩ := h
          have hw : walkedLeaders ref (q :: rest) = [q] := by simp [walkedLeaders, hlk, hs]
          rw [hw]
          refine ⟨Or.inr rfl, ?_, ?_, nodupKeys_mapInsert _ _ _⟩
          · intro k
            rw [lookup_mapInsert]
            by_cases hk : k = q
            · subst hk
              simp [hlk, statsOf]
            · simp [hk]
          · intro k hk
            rw [List.mem_singleton] at hk
            rw [hk, hlk]; rfl
        · simp only [extendedAlrpLoop, hlk, hok, hs, if_true, if_false] at h
          obtain ⟨h1, h2, h3, h4⟩ := ih _ _ h
          have hw : walkedLeaders ref (q :: rest) = q :: walkedLeaders ref rest := by
            simp [walkedLeaders, hlk, hs]
          rw [hw]
          refine ⟨?_, ?_, ?_, fun hnd => h4 (nodupKeys_mapInsert _ _ _ hnd)⟩
          · rcases h1 with h1 | h1
            · left; simp only [List.length_cons]; omega
            · exact Or.inr h1
          · intro k
            rw [h2 k, lookup_mapInsert]
            by_cases hk : k = q
            · subst hk
              simp [hlk, statsOf]
            · simp [hk]
          · intro k hk
            rcases List.mem_cons.1 hk with rfl | hk
            · rw [hlk]; rfl
            · exact h3 k hk
      · simp [extendedAlrpLoop, hlk, hok] at h

/-- The chain condition that makes `CheckAlrpChainValidity` return true, for a position
within the leaders sequence. -/
theorem checkAlrp_true_of_chain (ext : Externals) (block : Block) (eh : EpochDataHandler)
    (spare : List String) (position : Int) (h0 : 0 ≤ position)
    (hlen : position ≤ eh.LeadersSequence.length)
    (hchain : (∀ leader ∈ eh.LeadersSequence.take position.toNat,
        acceptedAlrp ext block eh leader = true) ∨
      ∃ earlier leader later,
        eh.LeadersSequence.take position.toNat = earlier ++ leader :: later ∧
        acceptedProducer ext block eh leader = true ∧
        ∀ walked ∈ later, acceptedAlrp ext block eh walked = true) :
    CheckAlrpChainValidity ext block eh spare position = some true := by
  have hguard : ¬ (position < 0 ∨ position > (eh.LeadersSequence ++ spare).length) := by
    rw [List.length_append]; omega
  have htake : (eh.LeadersSequence ++ spare).take position.toNat =
      eh.LeadersSequence.take position.toNat :=
    List.take_append_of_le_length (by omega)
  have hl : ((eh.LeadersSequence.take position.toNat).reverse).length = position.toNat := by
    rw [List.length_reverse, List.length_take]
    omega
  have harith : ∀ i : Nat, i = 0 + position.toNat → (i : Int) = position := by
    intro i; omega
  have hloop := alrpLoop_passes_iff ext block eh
    (eh.LeadersSequence.take position.toNat).reverse 0
  rw [chain_condition_reverse (acceptedAlrp ext block eh) (acceptedProducer ext block eh), hl]
    at hloop
  obtain ⟨i, b, hres, hpass⟩ := hloop.2 hchain
  unfold CheckAlrpChainValidity
  simp only [hguard, if_false, htake, hres]
  rcases hpass with hpass | hpass
  · simp [harith i hpass]
  · simp [hpass]

/-- The string `strconv.Itoa(int(x))` for a 64-bit unsigned `x`. -/
theorem itoa_uintToInt (x : Nat) (hx : x < 2 ^ 64) : Itoa (uintToInt x) = signedDecimal x := by
  have hmod : x % 2 ^ 64 = x := Nat.mod_eq_of_lt hx
  unfold uintToInt signedDecimal Itoa decimal
  rw [hmod]
  by_cases h : x < 2 ^ 63
  · simp only [h, if_true]
    rfl
  · simp only [h, if_false]
    have hneg : ((x : Nat) : Int) - 2 ^ 64 = Int.negSucc (2 ^ 64 - x - 1) := by
      rw [Int.negSucc_eq]
      omega
    rw [hneg]
    have hsucc : 2 ^ 64 - x - 1 + 1 = 2 ^ 64 - x := by omega
    show "-" ++ toString (Nat.succ (2 ^ 64 - x - 1)) = "-" ++ toString (2 ^ 64 - x)
    rw [Nat.succ_eq_add_one, hsucc]

/-! ### The candidate chosen by one iteration, and registries of two pools -/

/-- The inner loop breaks at the first candidate, in iteration order, whose running
cumulative stake is at least the draw. -/
theorem pickValidator_first (r : Int) (l : List (String × ValidatorData)) (c : Int)
    (e : String × ValidatorData) (h : pickValidator r l c = some e) :
    ∃ before after, l = before ++ e :: after ∧
      r ≤ c + stakeSum before + (e.2.TotalStake : Int) ∧
      ∀ b₁ x b₂, before = b₁ ++ x :: b₂ → c + stakeSum b₁ + (x.2.TotalStake : Int) < r := by
  induction l generalizing c with
  | nil => simp [pickValidator] at h
  | cons y ys ih =>
    obtain ⟨k, v⟩ := y
    simp only [pickValidator] at h
    by_cases hr : r ≤ c + (v.TotalStake : Int)
    · simp only [hr, if_true, Option.some.injEq] at h
      subst h
      refine ⟨[], ys, rfl, by simpa [stakeSum] using hr, ?_⟩
      intro b₁ x b₂ hb
      cases b₁ <;> simp at hb
    · simp only [hr, if_false] at h
      obtain ⟨before, after, hl, hle, hfirst⟩ := ih _ h
      refine ⟨(k, v) :: before, after, by rw [hl]; rfl, ?_, ?_⟩
      · rw [stakeSum_cons]
        simp only
        omega
      · intro b₁ x b₂ hb
        cases b₁ with
        | nil =>
          simp only [List.nil_append, List.cons.injEq] at hb
          rw [← hb.1]
          simp only [stakeSum, List.map_nil, List.sum_nil]
          omega
        | cons z zs =>
          simp only [List.cons_append, List.cons.injEq] at hb
          have := hfirst zs x b₂ hb.2
          rw [← hb.1, stakeSum_cons]
          simp only
          omega

/-- A permutation of a pair is the pair or its swap. -/
theorem perm_pair_cases {α : Type} (l : List α) (a b : α) (h : l.Perm [a, b]) :
    l = [a, b] ∨ l = [b, a] := by
  have hlen := h.length_eq
  match l, hlen with
  | [x, y], _ =>
    have hx : x ∈ [a, b] := h.mem_iff.1 (List.mem_cons_self _ _)
    simp only [List.mem_cons, List.mem_singleton, List.not_mem_nil, or_false] at hx
    rcases hx with rfl | rfl
    · left
      have := (List.perm_cons x).1 h
      rw [List.perm_singleton.1 this]
    · right
      have h2 : [x, y].Perm [x, a] := h.trans (List.Perm.swap x a [])
      have := (List.perm_cons x).1 h2
      rw [List.perm_singleton.1 this]

/-- Two candidates of stake 1 are appended in the order in which the first inner loop
visits them, whatever the draws are. -/
theorem samplerLoop_two (ext : Externals) (order : RangeOrder) (horder : order.Valid)
    (hash : String) (m : List (String × ValidatorData)) (c₁ c₂ : String × ValidatorData)
    (hm : m.Perm [c₁, c₂]) (hne : c₁.1 ≠ c₂.1)
    (h₁ : c₁.2.TotalStake = 1) (h₂ : c₂.2.TotalStake = 1) (hfirst : order 0 m = [c₁, c₂]) :
    samplerLoop ext order hash 2 0 [] 2 m = some [c₁.1, c₂.1] := by
  have hnd : NodupKeys m := by
    unfold NodupKeys
    rw [(hm.map Prod.fst).nodup_iff]
    simp [hne]
  have hmem : c₁ ∈ m := hm.mem_iff.2 (List.mem_cons_self _ _)
  have hdel : mapDelete c₁.1 m = [c₂] := by
    have hp := (perm_cons_mapDelete m c₁ hnd hmem).symm.trans hm
    exact List.perm_singleton.1 ((List.perm_cons c₁).1 hp)
  have hr : ∀ x : Int, x % 2 ≤ 1 := by
    intro x
    have := Int.emod_lt_of_pos x (by decide : (0 : Int) < 2)
    omega
  obtain ⟨k₁, v₁⟩ := c₁
  obtain ⟨k₂, v₂⟩ := c₂
  simp only at h₁ h₂ hdel hne
  have hpick₁ : ∀ x : Int, pickValidator (x % 2) [(k₁, v₁), (k₂, v₂)] 0 = some (k₁, v₁) := by
    intro x
    have := hr x
    simp only [pickValidator, h₁]
    rw [if_pos (by omega)]
  have hone : order 1 [(k₂, v₂)] = [(k₂, v₂)] := List.perm_singleton.1 (horder 1 _)
  have hpick₂ : ∀ x : Int, pickValidator (x % 1) [(k₂, v₂)] 0 = some (k₂, v₂) := by
    intro x
    simp only [pickValidator, h₂, Int.emod_one]
    rw [if_pos (by omega)]
  have hstep₂ : samplerLoop ext order hash 1 1 [k₁] 1 [(k₂, v₂)] = some [k₁, k₂] := by
    simp only [samplerLoop, hone, hpick₂]
    simp
  have hstep₁ : samplerLoop ext order hash 2 0 [] 2 m =
      samplerLoop ext order hash 1 1 [k₁] 1 [(k₂, v₂)] := by
    rw [samplerLoop]
    simp only [hfirst, hpick₁, hdel, h₁]
    simp
  rw [hstep₁, hstep₂]

/-- For a registry of two pools of stake 1 the leaders sequence is the order in which the
first inner loop visits the two candidates. -/
theorem setLeadersSequence_two_pools (ext : Externals) (state : ApprovementThreadState)
    (order : RangeOrder) (eh : EpochDataHandler) (seed : String) (p q : String)
    (hreg : eh.PoolsRegistry = [p, q]) (hne : p ≠ q) (hstored : AllStored state [p, q])
    (hp : stakeOf state p = 1) (hq : stakeOf state q = 1) (horder : order.Valid) :
    SetLeadersSequence ext state order eh seed =
      some ⟨eh.Id, eh.Hash, eh.PoolsRegistry, eh.Quorum,
        (order 0 [(p, ⟨p, 1⟩), (q, ⟨q, 1⟩)]).map Prod.fst⟩ := by
  have hnd : [p, q].Nodup := by simp [hne]
  have hcollect := collectValidators_eq state [p, q] [] 0 hstored hnd (by simp)
  simp only [List.map_cons, List.map_nil, hp, hq, List.nil_append, stakeSum_cons] at hcollect
  have htotal : (0 : Int) + (((1 : Nat) : Int) + (((1 : Nat) : Int) + stakeSum [])) = 2 := by
    simp [stakeSum]
  rw [htotal] at hcollect
  have hloop : samplerLoop ext order (ext.Blake3 seed) 2 0 [] 2
      [(p, (⟨p, 1⟩ : ValidatorData)), (q, ⟨q, 1⟩)] =
      some ((order 0 [(p, (⟨p, 1⟩ : ValidatorData)), (q, ⟨q, 1⟩)]).map Prod.fst) := by
    rcases perm_pair_cases _ _ _ (horder 0 [(p, (⟨p, 1⟩ : ValidatorData)), (q, ⟨q, 1⟩)])
      with h | h
    · rw [samplerLoop_two ext order horder _ _ (p, ⟨p, 1⟩) (q, ⟨q, 1⟩) (List.Perm.refl _) hne
        rfl rfl h, h]
      rfl
    · rw [samplerLoop_two ext order horder _ _ (q, ⟨q, 1⟩) (p, ⟨p, 1⟩) (List.Perm.swap _ _ _)
        (Ne.symm hne) rfl rfl h, h]
      rfl
  unfold SetLeadersSequence
  simp only [hreg, hcollect, List.length_cons, List.length_nil, Nat.zero_add, Nat.reduceAdd,
    hloop]

/-! ### The extended validator on the resliced sequence -/

/-- The leaders walked are elements of the list walked. -/
theorem walkedLeaders_subset (ref : List (String × AggregatedLeaderRotationProof))
    (l : List String) : ∀ k ∈ walkedLeaders ref l, k ∈ l := by
  induction l with
  | nil => intro k hk; simp [walkedLeaders] at hk
  | cons q rest ih =>
    intro k hk
    cases hlk : ref.lookup q with
    | none =>
      simp only [walkedLeaders, hlk, List.mem_cons] at hk
      rcases hk with rfl | hk
      · exact List.mem_cons_self _ _
      · exact List.mem_cons_of_mem _ (ih k hk)
    | some alrp =>
      by_cases hs : alrp.SkipIndex ≥ 0
      · simp only [walkedLeaders, hlk, hs, if_true, List.mem_singleton] at hk
        rw [hk]; exact List.mem_cons_self _ _
      · simp only [walkedLeaders, hlk, hs, if_false, List.mem_cons] at hk
        rcases hk with rfl | hk
        · exact List.mem_cons_self _ _
        · exact List.mem_cons_of_mem _ (ih k hk)

/-- The extended loop does not return false exactly when every leader walked has an entry
that passes its test. -/
theorem extendedAlrpLoop_isSome_iff (ext : Externals) (block : Block) (eh : EpochDataHandler)
    (d : Bool) (l : List String) (idx : Nat) (info : List (String × ExecutionStatsPerPool)) :
    (extendedAlrpLoop ext block.ExtraData.AggregatedLeadersRotationProofs eh d l idx
        info).isSome = true ↔
      ∀ k ∈ walkedLeaders block.ExtraData.AggregatedLeadersRotationProofs l,
        walkAccepted ext block eh d k = true := by
  induction l generalizing idx info with
  | nil => simp [extendedAlrpLoop, walkedLeaders]
  | cons q rest ih =>
    cases hlk : block.ExtraData.AggregatedLeadersRotationProofs.lookup q with
    | none =>
      have hacc : walkAccepted ext block eh d q = false := by simp [walkAccepted, hlk]
      simp only [extendedAlrpLoop, walkedLeaders, hlk, Option.isSome_none, List.mem_cons]
      constructor
      · intro h; cases h
      · intro h
        have := h q (Or.inl rfl)
        rw [hacc] at this; cases this
    | some alrp =>
      by_cases hok : (d || VerifyAggregatedLeaderRotationProof ext q alrp eh) = true
      · have hacc : walkAccepted ext block eh d q = true := by simp [walkAccepted, hlk, hok]
        by_cases hs : alrp.SkipIndex ≥ 0
        · simp only [extendedAlrpLoop, walkedLeaders, hlk, hok, hs, if_true,
            Option.isSome_some, List.mem_singleton, true_iff]
          intro k hk
          rw [hk]; exact hacc
        · simp only [extendedAlrpLoop, walkedLeaders, hlk, hok, hs, if_true, if_false,
            List.mem_cons]
          rw [ih]
          constructor
          · intro h k hk
            rcases hk with rfl | hk
            · exact hacc
            · exact h k hk
          · intro h k hk
            exact h k (Or.inr hk)
      · have hacc : walkAccepted ext block eh d q = false := by
          simp only [walkAccepted, hlk]
          simpa using hok
        have hmem : q ∈ walkedLeaders block.ExtraData.AggregatedLeadersRotationProofs
            (q :: rest) := by
          by_cases hs : alrp.SkipIndex ≥ 0
          · simp [walkedLeaders, hlk, hs]
          · simp [walkedLeaders, hlk, hs]
        simp only [extendedAlrpLoop, hlk, hok, Option.isSome_none]
        constructor
        · intro h; cases h
        · intro h
          have := h q hmem
          rw [hacc] at this; cases this

/-- C1: each of the three verifiers returns true iff the number of distinct values
`lowercase(pk)`, over the entries `(pk, sig)` of `proof.proofs` whose signature verifies and
whose `lowercase(pk)` is a lower-cased quorum member, is at least the majority; hence the
result is the same for every iteration order of `proof.proofs`. -/
theorem verifiers_count_distinct_lowercase_signers (ext : Externals)
    (efp : AggregatedEpochFinalizationProof) (afp : AggregatedFinalizationProof)
    (alrp : AggregatedLeaderRotationProof) (quorum : List String) (majority : Int)
    (fullID prevLeader : String) (eh : EpochDataHandler) :
    (VerifyAggregatedEpochFinalizationProof ext efp quorum majority fullID = true ↔
      majority ≤ ((acceptedSigners ext (epochFinalizationData efp fullID) quorum
        efp.Proofs).card : Int)) ∧
    (VerifyAggregatedFinalizationProof ext afp eh = true ↔
      GetQuorumMajority eh ≤ ((acceptedSigners ext (finalizationData afp eh) eh.Quorum
        afp.Proofs).card : Int)) ∧
    (VerifyAggregatedLeaderRotationProof ext prevLeader alrp eh = true ↔
      GetQuorumMajority eh ≤ ((acceptedSigners ext (leaderRotationData prevLeader alrp eh)
        eh.Quorum alrp.Proofs).card : Int)) ∧
    (∀ order : List (String × String), order.Perm efp.Proofs →
      VerifyAggregatedEpochFinalizationProof ext
        ⟨efp.LastLeader, efp.LastIndex, efp.LastHash, efp.HashOfFirstBlockByLastLeader, order⟩
        quorum majority fullID =
      VerifyAggregatedEpochFinalizationProof ext efp quorum majority fullID) ∧
    (∀ order : List (String × String), order.Perm afp.Proofs →
      VerifyAggregatedFinalizationProof ext
        ⟨afp.PrevBlockHash, afp.BlockId, afp.BlockHash, order⟩ eh =
      VerifyAggregatedFinalizationProof ext afp eh) ∧
    (∀ order : List (String × String), order.Perm alrp.Proofs →
      VerifyAggregatedLeaderRotationProof ext prevLeader
        ⟨alrp.FirstBlockHash, alrp.SkipIndex, alrp.SkipHash, order⟩ eh =
      VerifyAggregatedLeaderRotationProof ext prevLeader alrp eh) := by
  refine ⟨?_, ?_, ?_, ?_, ?_, ?_⟩
  · simp only [VerifyAggregatedEpochFinalizationProof, okSignatures_eq_card, ge_iff_le,
      decide_eq_true_eq]
  · simp only [VerifyAggregatedFinalizationProof, okSignatures_eq_card, ge_iff_le,
      decide_eq_true_eq]
  · simp only [VerifyAggregatedLeaderRotationProof, okSignatures_eq_card, ge_iff_le,
      decide_eq_true_eq]
  · intro order h
    simp only [VerifyAggregatedEpochFinalizationProof, epochFinalizationData,
      okSignatures_perm ext _ quorum h]
  · intro order h
    simp only [VerifyAggregatedFinalizationProof, finalizationData,
      okSignatures_perm ext _ eh.Quorum h]
  · intro order h
    simp only [VerifyAggregatedLeaderRotationProof, leaderRotationData,
      okSignatures_perm ext _ eh.Quorum h]

/-- Witness for C1: swapping the two entries of a proof leaves the result of
`VerifyAggregatedFinalizationProof` unchanged, and the result is true. -/
theorem verifiers_count_distinct_lowercase_signers_witness :
    VerifyAggregatedFinalizationProof demoExt ⟨"p", "0:a:1", "x", [("B", "s"), ("a", "s")]⟩
        demoEpoch =
      VerifyAggregatedFinalizationProof demoExt ⟨"p", "0:a:1", "x", [("a", "s"), ("B", "s")]⟩
        demoEpoch ∧
    VerifyAggregatedFinalizationProof demoExt ⟨"p", "0:a:1", "x", [("a", "s"), ("B", "s")]⟩
        demoEpoch = true :=
  ⟨(verifiers_count_distinct_lowercase_signers demoExt ⟨0, 0, "", "", []⟩
      ⟨"p", "0:a:1", "x", [("a", "s"), ("B", "s")]⟩ ⟨"", 0, "", []⟩ [] 0 "" ""
      demoEpoch).2.2.2.2.1 [("B", "s"), ("a", "s")] (List.Perm.swap _ _ _), by decide⟩

/-- C2: for a quorum of `n >= 1` members `GetQuorumMajority` returns `floor(2n/3) + 1`, the
result `m` satisfies `n/2 < m <= n`, and `n = 7, 3, 1` give `5, 3, 1`. -/
theorem getQuorumMajority_eq (eh : EpochDataHandler) (n : Nat) (hn : eh.Quorum.length = n)
    (h1 : 1 ≤ n) :
    GetQuorumMajority eh = ((2 * n / 3 + 1 : Nat) : Int) ∧
    (n : Int) < 2 * GetQuorumMajority eh ∧
    (n : Int) / 2 < GetQuorumMajority eh ∧
    GetQuorumMajority eh ≤ (n : Int) ∧
    (n = 7 → GetQuorumMajority eh = 5) ∧
    (n = 3 → GetQuorumMajority eh = 3) ∧
    (n = 1 → GetQuorumMajority eh = 1) := by
  have key : GetQuorumMajority eh = ((2 * n / 3 + 1 : Nat) : Int) := by
    simp only [GetQuorumMajority, hn]
    split <;> omega
  rw [key]
  refine ⟨rfl, ?_, ?_, ?_, ?_, ?_, ?_⟩ <;> omega

/-- Witness for C2: a quorum of seven members has majority five. -/
theorem getQuorumMajority_eq_witness :
    GetQuorumMajority ⟨0, "h", [], ["a", "b", "c", "d", "e", "f", "g"], []⟩ = 5 :=
  (getQuorumMajority_eq ⟨0, "h", [], ["a", "b", "c", "d", "e", "f", "g"], []⟩ 7 rfl
    (by decide)).2.2.2.2.1 rfl

/-- C3, the claim as stated fails: with quorum `["abc"]` the entry `("ABC", s)` has a
pubkey that is not a member of the quorum, yet it is counted (`ok = 1`, against `0` once
it is removed) and it decides the result of `VerifyAggregatedFinalizationProof`. -/
theorem out_of_quorum_entry_counted :
    "ABC" ∉ (["abc"] : List String) ∧
    demoExt.VerifySignature (finalizationData ⟨"p", "0:abc:1", "x", [("ABC", "s")]⟩
      ⟨0, "h", ["abc"], ["abc"], ["abc"]⟩) "ABC" "s" = true ∧
    okSignatures demoExt (finalizationData ⟨"p", "0:abc:1", "x", [("ABC", "s")]⟩
      ⟨0, "h", ["abc"], ["abc"], ["abc"]⟩) ["abc"] [("ABC", "s")] = 1 ∧
    okSignatures demoExt (finalizationData ⟨"p", "0:abc:1", "x", [("ABC", "s")]⟩
      ⟨0, "h", ["abc"], ["abc"], ["abc"]⟩) ["abc"] (mapDelete "ABC" [("ABC", "s")]) = 0 ∧
    VerifyAggregatedFinalizationProof demoExt ⟨"p", "0:abc:1", "x", [("ABC", "s")]⟩
      ⟨0, "h", ["abc"], ["abc"], ["abc"]⟩ = true ∧
    VerifyAggregatedFinalizationProof demoExt
      ⟨"p", "0:abc:1", "x", mapDelete "ABC" [("ABC", "s")]⟩
      ⟨0, "h", ["abc"], ["abc"], ["abc"]⟩ = false := by
  decide

/-- C3 as amended: an entry `(Z, sig)` whose `lowercase(Z)` is not the lower-case form of
any quorum member contributes 0 to `ok`, whatever `verify` says: removing it from
`proof.proofs` leaves `ok` and the result of each of the three verifiers unchanged. -/
theorem out_of_quorum_entry_contributes_zero (ext : Externals) (Z : String)
    (efp : AggregatedEpochFinalizationProof) (afp : AggregatedFinalizationProof)
    (alrp : AggregatedLeaderRotationProof) (quorum : List String) (majority : Int)
    (fullID prevLeader : String) (eh : EpochDataHandler)
    (hZ : ext.ToLower Z ∉ quorum.map ext.ToLower)
    (hZe : ext.ToLower Z ∉ eh.Quorum.map ext.ToLower) :
    (∀ (data : String) (proofs : List (String × String)),
      okSignatures ext data quorum (mapDelete Z proofs) =
        okSignatures ext data quorum proofs) ∧
    VerifyAggregatedEpochFinalizationProof ext
        ⟨efp.LastLeader, efp.LastIndex, efp.LastHash, efp.HashOfFirstBlockByLastLeader,
          mapDelete Z efp.Proofs⟩ quorum majority fullID =
      VerifyAggregatedEpochFinalizationProof ext efp quorum majority fullID ∧
    VerifyAggregatedFinalizationProof ext
        ⟨afp.PrevBlockHash, afp.BlockId, afp.BlockHash, mapDelete Z afp.Proofs⟩ eh =
      VerifyAggregatedFinalizationProof ext afp eh ∧
    VerifyAggregatedLeaderRotationProof ext prevLeader
        ⟨alrp.FirstBlockHash, alrp.SkipIndex, alrp.SkipHash, mapDelete Z alrp.Proofs⟩ eh =
      VerifyAggregatedLeaderRotationProof ext prevLeader alrp eh := by
  have key : ∀ (data : String) (q : List String), ext.ToLower Z ∉ q.map ext.ToLower →
      ∀ proofs : List (String × String),
      okSignatures ext data q (mapDelete Z proofs) = okSignatures ext data q proofs := by
    intro data q hq proofs
    rw [okSignatures_eq_card, okSignatures_eq_card,
      acceptedSigners_mapDelete_of_reject ext data q Z proofs hq]
  refine ⟨fun data proofs => key data quorum hZ proofs, ?_, ?_, ?_⟩
  · simp only [VerifyAggregatedEpochFinalizationProof, epochFinalizationData, key _ quorum hZ]
  · simp only [VerifyAggregatedFinalizationProof, finalizationData, key _ eh.Quorum hZe]
  · simp only [VerifyAggregatedLeaderRotationProof, leaderRotationData, key _ eh.Quorum hZe]

/-- Witness for C3 as amended: signer `"Z"` is outside the quorum `["a", "b"]` also after
lower-casing, and removing its entry leaves the result unchanged. -/
theorem out_of_quorum_entry_contributes_zero_witness :
    VerifyAggregatedFinalizationProof demoExt
        ⟨"p", "0:a:1", "x", mapDelete "Z" [("a", "s"), ("Z", "s")]⟩ demoEpoch =
      VerifyAggregatedFinalizationProof demoExt ⟨"p", "0:a:1", "x", [("a", "s"), ("Z", "s")]⟩
        demoEpoch :=
  (out_of_quorum_entry_contributes_zero demoExt "Z" ⟨0, 0, "", "", []⟩
    ⟨"p", "0:a:1", "x", [("a", "s"), ("Z", "s")]⟩ ⟨"", 0, "", []⟩ ["a", "b"] 0 "" ""
    demoEpoch (by decide) (by decide)).2.2.1

/-- C4: when a proof map holds two entries with different pubkeys that have the same
lower-case form, both with a valid signature and both in the quorum, then for every
iteration order the pair adds at most one to `ok`: `ok` is at most one more than without
the two entries, and equals what it is with the second entry removed. -/
theorem duplicate_lowercase_pair_counts_once (ext : Externals) (data : String)
    (quorum : List String) (proofs order : List (String × String))
    (pk₁ sig₁ pk₂ sig₂ : String) (h₁ : (pk₁, sig₁) ∈ proofs) (h₂ : (pk₂, sig₂) ∈ proofs)
    (hne : pk₁ ≠ pk₂) (hlow : ext.ToLower pk₁ = ext.ToLower pk₂)
    (hv₁ : ext.VerifySignature data pk₁ sig₁ = true)
    (hv₂ : ext.VerifySignature data pk₂ sig₂ = true)
    (hq₁ : ext.ToLower pk₁ ∈ quorum.map ext.ToLower)
    (hq₂ : ext.ToLower pk₂ ∈ quorum.map ext.ToLower)
    (horder : order.Perm proofs) :
    okSignatures ext data quorum order ≤
      okSignatures ext data quorum (mapDelete pk₂ (mapDelete pk₁ proofs)) + 1 ∧
    okSignatures ext data quorum order = okSignatures ext data quorum (mapDelete pk₂ proofs) ∧
    okSignatures ext data quorum order = okSignatures ext data quorum (mapDelete pk₁ proofs) := by
  have hsub₁ := (acceptedSigners_mapDelete ext data quorum pk₁ proofs).2
  have hsub₂ := (acceptedSigners_mapDelete ext data quorum pk₂ (mapDelete pk₁ proofs)).2
  have hsub₃ := acceptedSigners_mapDelete ext data quorum pk₂ proofs
  have hsub₄ := acceptedSigners_mapDelete ext data quorum pk₁ proofs
  have hmem₁ : ext.ToLower pk₁ ∈ acceptedSigners ext data quorum (mapDelete pk₂ proofs) :=
    (mem_acceptedSigners ext data quorum _ _).2
      ⟨(pk₁, sig₁), (mem_mapDelete pk₂ proofs _).2 ⟨h₁, hne⟩, ⟨hv₁, hq₁⟩, rfl⟩
  have hmem₂ : ext.ToLower pk₂ ∈ acceptedSigners ext data quorum (mapDelete pk₁ proofs) :=
    (mem_acceptedSigners ext data quorum _ _).2
      ⟨(pk₂, sig₂), (mem_mapDelete pk₁ proofs _).2 ⟨h₂, Ne.symm hne⟩, ⟨hv₂, hq₂⟩, rfl⟩
  rw [okSignatures_eq_card, okSignatures_eq_card, okSignatures_eq_card, okSignatures_eq_card,
    acceptedSigners_perm ext data quorum horder]
  refine ⟨?_, ?_, ?_⟩
  · refine le_trans (Finset.card_le_card ?_) (Finset.card_insert_le (ext.ToLower pk₁) _)
    intro x hx
    have hx₁ := hsub₁ hx
    rw [Finset.mem_insert] at hx₁ ⊢
    rcases hx₁ with hx₁ | hx₁
    · exact Or.inl hx₁
    · have hx₂ := hsub₂ hx₁
      rw [Finset.mem_insert] at hx₂
      rcases hx₂ with hx₂ | hx₂
      · exact Or.inl (hx₂.trans hlow.symm)
      · exact Or.inr hx₂
  · congr 1
    refine Finset.Subset.antisymm ?_ hsub₃.1
    intro x hx
    have hx₁ := hsub₃.2 hx
    rw [Finset.mem_insert] at hx₁
    rcases hx₁ with hx₁ | hx₁
    · rw [hx₁, ← hlow]; exact hmem₁
    · exact hx₁
  · congr 1
    refine Finset.Subset.antisymm ?_ hsub₄.1
    intro x hx
    have hx₁ := hsub₄.2 hx
    rw [Finset.mem_insert] at hx₁
    rcases hx₁ with hx₁ | hx₁
    · rw [hx₁, hlow]; exact hmem₂
    · exact hx₁

/-- Witness for C4: the entries `"A"` and `"a"` of one proof count once. -/
theorem duplicate_lowercase_pair_counts_once_witness :
    okSignatures demoExt "m" ["a", "b"] [("b", "s"), ("a", "t"), ("A", "s")] ≤
      okSignatures demoExt "m" ["a", "b"]
        (mapDelete "a" (mapDelete "A" [("A", "s"), ("b", "s"), ("a", "t")])) + 1 ∧
    okSignatures demoExt "m" ["a", "b"] [("b", "s"), ("a", "t"), ("A", "s")] =
      okSignatures demoExt "m" ["a", "b"] (mapDelete "a" [("A", "s"), ("b", "s"), ("a", "t")]) ∧
    okSignatures demoExt "m" ["a", "b"] [("b", "s"), ("a", "t"), ("A", "s")] =
      okSignatures demoExt "m" ["a", "b"] (mapDelete "A" [("A", "s"), ("b", "s"), ("a", "t")]) :=
  duplicate_lowercase_pair_counts_once demoExt "m" ["a", "b"]
    [("A", "s"), ("b", "s"), ("a", "t")] [("b", "s"), ("a", "t"), ("A", "s")]
    "A" "s" "a" "t" (by decide) (by decide) (by decide) (by decide) rfl rfl
    (by decide) (by decide) (by decide)

/-- C5: adding one entry to the proof map, in whatever place of the iteration order, never
decreases `ok` (and raises it by at most one), so a proof accepted by
`VerifyAggregatedFinalizationProof`, `VerifyAggregatedLeaderRotationProof` or
`VerifyAggregatedEpochFinalizationProof` is still accepted after the addition. This holds
for every added entry, in particular for a valid signature of a quorum member. -/
theorem verifiers_monotone (ext : Externals) (pk sig : String)
    (efp : AggregatedEpochFinalizationProof) (afp : AggregatedFinalizationProof)
    (alrp : AggregatedLeaderRotationProof) (quorum : List String) (majority : Int)
    (fullID prevLeader : String) (eh : EpochDataHandler)
    (extended₁ extended₂ extended₃ : List (String × String))
    (h₁ : extended₁.Perm ((pk, sig) :: afp.Proofs))
    (h₂ : extended₂.Perm ((pk, sig) :: alrp.Proofs))
    (h₃ : extended₃.Perm ((pk, sig) :: efp.Proofs)) :
    (okSignatures ext (finalizationData afp eh) eh.Quorum afp.Proofs ≤
        okSignatures ext (finalizationData afp eh) eh.Quorum extended₁ ∧
      okSignatures ext (finalizationData afp eh) eh.Quorum extended₁ ≤
        okSignatures ext (finalizationData afp eh) eh.Quorum afp.Proofs + 1) ∧
    (okSignatures ext (leaderRotationData prevLeader alrp eh) eh.Quorum alrp.Proofs ≤
        okSignatures ext (leaderRotationData prevLeader alrp eh) eh.Quorum extended₂ ∧
      okSignatures ext (leaderRotationData prevLeader alrp eh) eh.Quorum extended₂ ≤
        okSignatures ext (leaderRotationData prevLeader alrp eh) eh.Quorum alrp.Proofs + 1) ∧
    (VerifyAggregatedFinalizationProof ext afp eh = true →
      VerifyAggregatedFinalizationProof ext
        ⟨afp.PrevBlockHash, afp.BlockId, afp.BlockHash, extended₁⟩ eh = true) ∧
    (VerifyAggregatedLeaderRotationProof ext prevLeader alrp eh = true →
      VerifyAggregatedLeaderRotationProof ext prevLeader
        ⟨alrp.FirstBlockHash, alrp.SkipIndex, alrp.SkipHash, extended₂⟩ eh = true) ∧
    (VerifyAggregatedEpochFinalizationProof ext efp quorum majority fullID = true →
      VerifyAggregatedEpochFinalizationProof ext
        ⟨efp.LastLeader, efp.LastIndex, efp.LastHash, efp.HashOfFirstBlockByLastLeader,
          extended₃⟩ quorum majority fullID = true) := by
  have key : ∀ (data : String) (q : List String) (old new : List (String × String)),
      new.Perm ((pk, sig) :: old) →
      okSignatures ext data q old ≤ okSignatures ext data q new ∧
      okSignatures ext data q new ≤ okSignatures ext data q old + 1 := by
    intro data q old new h
    rw [okSignatures_eq_card, okSignatures_eq_card, acceptedSigners_perm ext data q h]
    exact ⟨Finset.card_le_card (acceptedSigners_cons_subset ext data q _ _).1,
      (acceptedSigners_cons_subset ext data q _ _).2⟩
  refine ⟨key _ _ _ _ h₁, key _ _ _ _ h₂, ?_, ?_, ?_⟩
  · have hk := (key (finalizationData afp eh) eh.Quorum _ _ h₁).1
    simp only [VerifyAggregatedFinalizationProof, finalizationData, ge_iff_le,
      decide_eq_true_eq] at hk ⊢
    intro h
    exact le_trans h (by exact_mod_cast hk)
  · have hk := (key (leaderRotationData prevLeader alrp eh) eh.Quorum _ _ h₂).1
    simp only [VerifyAggregatedLeaderRotationProof, leaderRotationData, ge_iff_le,
      decide_eq_true_eq] at hk ⊢
    intro h
    exact le_trans h (by exact_mod_cast hk)
  · have hk := (key (epochFinalizationData efp fullID) quorum _ _ h₃).1
    simp only [VerifyAggregatedEpochFinalizationProof, epochFinalizationData, ge_iff_le,
      decide_eq_true_eq] at hk ⊢
    intro h
    exact le_trans h (by exact_mod_cast hk)

/-- Witness for C5: the proof signed by `"a"` and `"b"` is accepted, and stays accepted when
the entry of `"c"` is added in front. -/
theorem verifiers_monotone_witness :
    VerifyAggregatedFinalizationProof demoExt
      ⟨"p", "0:a:1", "x", [("c", "s"), ("a", "s"), ("b", "s")]⟩ demoEpoch = true :=
  (verifiers_monotone demoExt "c" "s" ⟨0, 0, "", "", []⟩
    ⟨"p", "0:a:1", "x", [("a", "s"), ("b", "s")]⟩ ⟨"", 0, "", []⟩ [] 0 "" "" demoEpoch
    [("c", "s"), ("a", "s"), ("b", "s")] [("c", "s")] [("c", "s")]
    (List.Perm.refl _) (List.Perm.refl _) (List.Perm.refl _)).2.2.1 (by decide)

/-! ## Claims on the ALRP chain validator -/

/-- C6: for `0 <= position <= len(leaders_sequence)`, `CheckAlrpChainValidity` returns, and
it returns true iff either (a) every leader of `leaders_sequence[0..position)` has an entry
in the block that `VerifyAggregatedLeaderRotationProof` accepts, or (b) the prefix splits as
`earlier ++ [leader] ++ later` where `leader` has an accepted entry with `skip_index >= 0`
and every leader of `later`, those walked before it, has an accepted entry; this holds
whatever the spare capacity of the slice holds. -/
theorem checkAlrpChainValidity_iff (ext : Externals) (block : Block) (eh : EpochDataHandler)
    (spare : List String) (position : Int) (h0 : 0 ≤ position)
    (hlen : position ≤ eh.LeadersSequence.length) :
    ∃ result, CheckAlrpChainValidity ext block eh spare position = some result ∧
      (result = true ↔
        ((∀ leader ∈ eh.LeadersSequence.take position.toNat,
            acceptedAlrp ext block eh leader = true) ∨
          ∃ earlier leader later,
            eh.LeadersSequence.take position.toNat = earlier ++ leader :: later ∧
            acceptedProducer ext block eh leader = true ∧
            ∀ walked ∈ later, acceptedAlrp ext block eh walked = true)) := by
  have hguard : ¬ (position < 0 ∨ position > (eh.LeadersSequence ++ spare).length) := by
    rw [List.length_append]; omega
  have htake : (eh.LeadersSequence ++ spare).take position.toNat =
      eh.LeadersSequence.take position.toNat :=
    List.take_append_of_le_length (by omega)
  have hl : ((eh.LeadersSequence.take position.toNat).reverse).length = position.toNat := by
    rw [List.length_reverse, List.length_take]
    omega
  have harith : ∀ i : Nat, ((i : Int) = position ↔ i = 0 + position.toNat) := by
    intro i; omega
  have hloop := alrpLoop_passes_iff ext block eh
    (eh.LeadersSequence.take position.toNat).reverse 0
  rw [chain_condition_reverse (acceptedAlrp ext block eh) (acceptedProducer ext block eh), hl]
    at hloop
  rw [← hloop]
  unfold CheckAlrpChainValidity
  simp only [hguard, if_false, htake]
  cases hres : alrpLoop ext block.ExtraData.AggregatedLeadersRotationProofs eh
      (eh.LeadersSequence.take position.toNat).reverse 0 with
  | none => exact ⟨false, rfl, by simp⟩
  | some r =>
    obtain ⟨i, b⟩ := r
    refine ⟨_, rfl, ?_⟩
    simp only [Option.some.injEq, Prod.mk.injEq, Bool.or_eq_true, decide_eq_true_eq]
    constructor
    · rintro (h | h)
      · exact ⟨i, b, ⟨rfl, rfl⟩, Or.inl ((harith i).1 h)⟩
      · exact ⟨i, b, ⟨rfl, rfl⟩, Or.inr h⟩
    · rintro ⟨i', b', ⟨rfl, rfl⟩, h | h⟩
      · exact Or.inl ((harith i).2 h)
      · exact Or.inr h

/-- Witness for C6: with leaders `["a", "b"]` and `position = 2` the block carries an
accepted proof with `skip_index = 3` for `"b"` and nothing for `"a"`. -/
theorem checkAlrpChainValidity_iff_witness :
    (0 : Int) ≤ 2 ∧ (2 : Int) ≤ demoEpoch.LeadersSequence.length ∧
    ∃ result, CheckAlrpChainValidity demoExt demoBlock demoEpoch [""] 2 = some result ∧
      (result = true ↔
        ((∀ leader ∈ demoEpoch.LeadersSequence.take (2 : Int).toNat,
            acceptedAlrp demoExt demoBlock demoEpoch leader = true) ∨
          ∃ earlier leader later,
            demoEpoch.LeadersSequence.take (2 : Int).toNat = earlier ++ leader :: later ∧
            acceptedProducer demoExt demoBlock demoEpoch leader = true ∧
            ∀ walked ∈ later, acceptedAlrp demoExt demoBlock demoEpoch walked = true)) :=
  ⟨by decide, by decide,
    checkAlrpChainValidity_iff demoExt demoBlock demoEpoch [""] 2 (by decide) (by decide)⟩

/-! ## Claims on the samplers -/

/-- C7: for a registry with distinct keys and every iteration order, seed and stake
assignment, when `SetLeadersSequence` completes `leaders_sequence` has no duplicates, has
the length of the registry and is a permutation of it; and it completes whenever every pool
has storage with a positive stake. -/
theorem setLeadersSequence_permutation (ext : Externals) (state : ApprovementThreadState)
    (order : RangeOrder) (eh : EpochDataHandler) (epochSeed : String)
    (hreg : eh.PoolsRegistry.Nodup) (horder : order.Valid) :
    (∀ eh', SetLeadersSequence ext state order eh epochSeed = some eh' →
      eh'.LeadersSequence.Nodup ∧
      eh'.LeadersSequence.length = eh.PoolsRegistry.length ∧
      eh'.LeadersSequence.Perm eh.PoolsRegistry ∧
      eh'.PoolsRegistry = eh.PoolsRegistry) ∧
    (AllStored state eh.PoolsRegistry → (∀ pk ∈ eh.PoolsRegistry, 0 < stakeOf state pk) →
      ∃ eh', SetLeadersSequence ext state order eh epochSeed = some eh') := by
  constructor
  · intro eh' h
    unfold SetLeadersSequence at h
    cases hc : collectValidators state eh.PoolsRegistry ([], 0) with
    | none => simp [hc] at h
    | some r =>
      obtain ⟨m₀, total₀⟩ := r
      have hstored := allStored_of_collectValidators state _ _ _ hc
      obtain ⟨m, hm, hnd, hkeys, _, _⟩ := collectValidators_registry state _ hstored hreg
      rw [hm] at hc
      simp only [Option.some.injEq, Prod.mk.injEq] at hc
      obtain ⟨rfl, rfl⟩ := hc
      simp only [hm] at h
      cases hl : samplerLoop ext order (ext.Blake3 epochSeed) eh.PoolsRegistry.length 0 []
          (stakeSum m) m with
      | none => simp [hl] at h
      | some out =>
        simp only [hl, Option.some.injEq] at h
        obtain ⟨picked, hout, hlen, hpnd, hsub⟩ :=
          samplerLoop_result ext order horder _ _ _ _ _ _ _ hnd rfl hl
        rw [List.nil_append] at hout
        subst hout
        rw [hkeys] at hsub
        rw [← h]
        refine ⟨hpnd, hlen, ?_, rfl⟩
        exact (List.subperm_of_subset hpnd hsub).perm_of_length_le (le_of_eq hlen.symm)
  · intro hstored hpos
    obtain ⟨m, hm, hnd, _, hcount, _⟩ := collectValidators_registry state _ hstored hreg
    have hall : eh.PoolsRegistry.filter (fun pk => decide (0 < stakeOf state pk)) =
        eh.PoolsRegistry := by
      rw [List.filter_eq_self]
      intro pk hpk
      simpa using hpos pk hpk
    rw [hall] at hcount
    obtain ⟨out, hout⟩ := samplerLoop_isSome ext order horder (ext.Blake3 epochSeed)
      eh.PoolsRegistry.length 0 [] (stakeSum m) m hnd rfl (le_of_eq hcount.symm)
    refine ⟨⟨eh.Id, eh.Hash, eh.PoolsRegistry, eh.Quorum, out⟩, ?_⟩
    simp only [SetLeadersSequence, hm, hout]

/-- Witness for C7: for two pools of stake 1 the call completes, and whatever handler it
returns carries a permutation of the registry. -/
theorem setLeadersSequence_permutation_witness :
    (∃ eh', SetLeadersSequence demoExt (stateOf [("A", 1), ("B", 1)]) listOrder
      ⟨0, "h", ["A", "B"], [], []⟩ "x" = some eh') ∧
    (∀ eh', SetLeadersSequence demoExt (stateOf [("A", 1), ("B", 1)]) listOrder
      ⟨0, "h", ["A", "B"], [], []⟩ "x" = some eh' →
      eh'.LeadersSequence.Nodup ∧ eh'.LeadersSequence.length = 2 ∧
      eh'.LeadersSequence.Perm ["A", "B"] ∧ eh'.PoolsRegistry = ["A", "B"]) :=
  ⟨(setLeadersSequence_permutation demoExt (stateOf [("A", 1), ("B", 1)]) listOrder
      ⟨0, "h", ["A", "B"], [], []⟩ "x" (by decide) (fun _ _ => List.Perm.refl _)).2
      (by decide) (by decide),
    (setLeadersSequence_permutation demoExt (stateOf [("A", 1), ("B", 1)]) listOrder
      ⟨0, "h", ["A", "B"], [], []⟩ "x" (by decide) (fun _ _ => List.Perm.refl _)).1⟩

/-- C8, the claim as stated fails: the registry `A, B, C` with stakes `1, 0, 0` has total
stake `1 > 0` and `q = 2 < 3`, yet `GetCurrentEpochQuorum` returns no sequence: after `A`
is drawn the remaining stake is 0 and the next draw divides by zero. -/
theorem getCurrentEpochQuorum_exhausted_stake :
    0 < ((["A", "B", "C"] : List String).map
      (stakeOf (stateOf [("A", 1), ("B", 0), ("C", 0)]))).sum ∧
    (0 : Int) ≤ 2 ∧ (2 : Int) < ((["A", "B", "C"] : List String).length : Int) ∧
    GetCurrentEpochQuorum demoExt (stateOf [("A", 1), ("B", 0), ("C", 0)]) listOrder
      ⟨0, "h", ["A", "B", "C"], [], []⟩ 2 "x" = none := by
  decide

/-- C8 as amended: in the sampling branch, `0 <= q < |registry|`, when every pool has
storage and at least `q` pools have a positive stake, `GetCurrentEpochQuorum` returns a
sequence of exactly `q` pairwise distinct pubkeys of the registry, for every seed and every
iteration order. -/
theorem getCurrentEpochQuorum_sample (ext : Externals) (state : ApprovementThreadState)
    (order : RangeOrder) (eh : EpochDataHandler) (quorumSize : Int) (newEpochSeed : String)
    (hreg : eh.PoolsRegistry.Nodup) (horder : order.Valid)
    (hstored : AllStored state eh.PoolsRegistry)
    (h0 : 0 ≤ quorumSize) (hlt : quorumSize < eh.PoolsRegistry.length)
    (hpos : quorumSize ≤
      ((eh.PoolsRegistry.filter (fun pk => decide (0 < stakeOf state pk))).length : Int)) :
    ∃ quorum, GetCurrentEpochQuorum ext state order eh quorumSize newEpochSeed = some quorum ∧
      (quorum.length : Int) = quorumSize ∧ quorum.Nodup ∧
      ∀ pk ∈ quorum, pk ∈ eh.PoolsRegistry := by
  obtain ⟨m, hm, hnd, hkeys, hcount, _⟩ := collectValidators_registry state _ hstored hreg
  have hbranch : ¬ ((eh.PoolsRegistry.length : Int) ≤ quorumSize) := by omega
  have hq : quorumSize.toNat ≤ positiveCount m := by
    rw [hcount]; omega
  obtain ⟨out, hout⟩ := samplerLoop_isSome ext order horder (ext.Blake3 newEpochSeed)
    quorumSize.toNat 0 [] (stakeSum m) m hnd rfl hq
  obtain ⟨picked, hpicked, hlen, hpnd, hsub⟩ :=
    samplerLoop_result ext order horder _ _ _ _ _ _ _ hnd rfl hout
  rw [List.nil_append] at hpicked
  subst hpicked
  rw [hkeys] at hsub
  refine ⟨out, ?_, ?_, hpnd, hsub⟩
  · simp only [GetCurrentEpochQuorum, hbranch, if_false, hm, hout]
  · rw [hlen]; omega

/-- Witness for C8 as amended: one pool out of `A, B, C` with stakes `1, 0, 0`. -/
theorem getCurrentEpochQuorum_sample_witness :
    ∃ quorum, GetCurrentEpochQuorum demoExt (stateOf [("A", 1), ("B", 0), ("C", 0)]) listOrder
        ⟨0, "h", ["A", "B", "C"], [], []⟩ 1 "x" = some quorum ∧
      (quorum.length : Int) = 1 ∧ quorum.Nodup ∧
      ∀ pk ∈ quorum, pk ∈ (["A", "B", "C"] : List String) :=
  getCurrentEpochQuorum_sample demoExt (stateOf [("A", 1), ("B", 0), ("C", 0)]) listOrder
    ⟨0, "h", ["A", "B", "C"], [], []⟩ 1 "x" (by decide) (fun _ _ => List.Perm.refl _)
    (by decide) (by decide) (by decide) (by decide)

/-- C9, the claim as stated fails: with stakes `A: 1, B: 0` the second iteration of
`SetLeadersSequence` starts with remaining stake 0 after `A` was appended, and the call
returns nothing instead of `[A]`; with all stakes 0 the first iteration of either sampler
already fails. -/
theorem sampler_zero_stake_panics :
    SetLeadersSequence demoExt (stateOf [("A", 1), ("B", 0)]) listOrder
      ⟨0, "h", ["A", "B"], [], []⟩ "x" = none ∧
    SetLeadersSequence demoExt (stateOf [("A", 0)]) listOrder
      ⟨0, "h", ["A"], [], []⟩ "x" = none ∧
    GetCurrentEpochQuorum demoExt (stateOf [("A", 0), ("B", 0)]) listOrder
      ⟨0, "h", ["A", "B"], [], []⟩ 1 "x" = none := by
  refine ⟨?_, ?_, ?_⟩ <;> rfl

/-- C9 as amended: an iteration of the sampler loop that starts with remaining total stake
`T = 0` takes the remainder modulo 0, which panics: no sequence is returned. In particular
`SetLeadersSequence` on a non-empty registry and `GetCurrentEpochQuorum` with
`1 <= q < |registry|` return nothing when every pool has stake 0. -/
theorem sampler_zero_total_no_result (ext : Externals) (state : ApprovementThreadState)
    (order : RangeOrder) (eh : EpochDataHandler) (quorumSize : Int) (seed : String)
    (hreg : eh.PoolsRegistry.Nodup) (hstored : AllStored state eh.PoolsRegistry)
    (hne : eh.PoolsRegistry ≠ []) (hzero : ∀ pk ∈ eh.PoolsRegistry, stakeOf state pk = 0)
    (h1 : 1 ≤ quorumSize) (hlt : quorumSize < eh.PoolsRegistry.length) :
    (∀ (hash : String) (n i : Nat) (sequence : List String)
        (validators : List (String × ValidatorData)),
      samplerLoop ext order hash (n + 1) i sequence 0 validators = none) ∧
    SetLeadersSequence ext state order eh seed = none ∧
    GetCurrentEpochQuorum ext state order eh quorumSize seed = none := by
  obtain ⟨m, hm, _, _, _, hsum⟩ := collectValidators_registry state _ hstored hreg
  have hT : stakeSum m = 0 := hsum hne hzero
  obtain ⟨k, hk⟩ : ∃ k, eh.PoolsRegistry.length = k + 1 :=
    Nat.exists_eq_succ_of_ne_zero (fun h => hne (List.length_eq_zero.1 h))
  obtain ⟨j, hj⟩ : ∃ j, quorumSize.toNat = j + 1 :=
    Nat.exists_eq_succ_of_ne_zero (by omega)
  have hbranch : ¬ ((eh.PoolsRegistry.length : Int) ≤ quorumSize) := by omega
  refine ⟨fun hash n i sequence validators => samplerLoop_zero_total ext order hash n i
    sequence validators, ?_, ?_⟩
  · simp only [SetLeadersSequence, hm, hT, hk, samplerLoop_zero_total]
  · simp only [GetCurrentEpochQuorum, hbranch, if_false, hm, hT, hj, samplerLoop_zero_total]

/-- Witness for C9 as amended: three pools of stake 0 and quorum size 1. -/
theorem sampler_zero_total_no_result_witness :
    SetLeadersSequence demoExt (stateOf [("A", 0), ("B", 0), ("C", 0)]) listOrder
      ⟨0, "h", ["A", "B", "C"], [], []⟩ "x" = none ∧
    GetCurrentEpochQuorum demoExt (stateOf [("A", 0), ("B", 0), ("C", 0)]) listOrder
      ⟨0, "h", ["A", "B", "C"], [], []⟩ 1 "x" = none :=
  (sampler_zero_total_no_result demoExt (stateOf [("A", 0), ("B", 0), ("C", 0)]) listOrder
    ⟨0, "h", ["A", "B", "C"], [], []⟩ 1 "x" (by decide) (by decide) (by decide) (by decide)
    (by decide) (by decide)).2

/-- C10: when `|pools_registry| <= quorum size`, `GetCurrentEpochQuorum` returns a sequence
that contains every pubkey of the registry exactly once and nothing else, of the length of
the registry, whatever the seed, the stakes, the hash and the iteration order of the
sampler are. -/
theorem getCurrentEpochQuorum_whole_registry (ext ext' : Externals)
    (state state' : ApprovementThreadState) (order order' : RangeOrder)
    (eh : EpochDataHandler) (quorumSize : Int) (seed seed' : String)
    (hreg : eh.PoolsRegistry.Nodup) (hle : (eh.PoolsRegistry.length : Int) ≤ quorumSize) :
    ∃ quorum, GetCurrentEpochQuorum ext state order eh quorumSize seed = some quorum ∧
      GetCurrentEpochQuorum ext' state' order' eh quorumSize seed' = some quorum ∧
      quorum.length = eh.PoolsRegistry.length ∧ quorum.Perm eh.PoolsRegistry ∧
      (∀ pk ∈ eh.PoolsRegistry, quorum.count pk = 1) ∧
      (∀ pk, pk ∉ eh.PoolsRegistry → quorum.count pk = 0) := by
  refine ⟨eh.PoolsRegistry, ?_, ?_, rfl, List.Perm.refl _, ?_, ?_⟩
  · simp only [GetCurrentEpochQuorum, hle, if_true]
  · simp only [GetCurrentEpochQuorum, hle, if_true]
  · intro pk hpk
    exact List.count_eq_one_of_mem hreg hpk
  · intro pk hpk
    exact List.count_eq_zero_of_not_mem hpk

/-- Witness for C10: the registry `A, B, C` with quorum size 10. -/
theorem getCurrentEpochQuorum_whole_registry_witness :
    ∃ quorum, GetCurrentEpochQuorum demoExt (stateOf []) listOrder
        ⟨0, "h", ["A", "B", "C"], [], []⟩ 10 "x" = some quorum ∧
      GetCurrentEpochQuorum demoExt (stateOf [("A", 5)]) listOrder
        ⟨0, "h", ["A", "B", "C"], [], []⟩ 10 "y" = some quorum ∧
      quorum.length = 3 ∧ quorum.Perm ["A", "B", "C"] ∧
      (∀ pk ∈ (["A", "B", "C"] : List String), quorum.count pk = 1) ∧
      (∀ pk, pk ∉ (["A", "B", "C"] : List String) → quorum.count pk = 0) :=
  getCurrentEpochQuorum_whole_registry demoExt demoExt (stateOf []) (stateOf [("A", 5)])
    listOrder listOrder ⟨0, "h", ["A", "B", "C"], [], []⟩ 10 "x" "y" (by decide) (by decide)

/-! ## Claims on the short circuit and on the extended chain validator -/

/-- C11: for `1 <= position <= len(leaders_sequence)`, when the prefix splits as
`earlier ++ [leader] ++ later` with an accepted entry of `skip_index >= 0` for `leader` and
accepted entries for all of `later` (the nearer leaders), `CheckAlrpChainValidity` returns
true, and it returns true for every other block whose rotation-proof map has the same
entries for `leader` and the leaders of `later`, whatever its entries for the leaders of
`earlier` are (present, absent or invalid), and whatever the spare capacity of the slice
holds. -/
theorem checkAlrp_short_circuit (ext : Externals) (block other : Block)
    (eh : EpochDataHandler) (spare : List String) (position : Int)
    (earlier later : List String) (leader : String)
    (h1 : 1 ≤ position) (hlen : position ≤ eh.LeadersSequence.length)
    (hsplit : eh.LeadersSequence.take position.toNat = earlier ++ leader :: later)
    (hprod : acceptedProducer ext block eh leader = true)
    (hlater : ∀ walked ∈ later, acceptedAlrp ext block eh walked = true)
    (hsame : ∀ k ∈ leader :: later,
      other.ExtraData.AggregatedLeadersRotationProofs.lookup k =
        block.ExtraData.AggregatedLeadersRotationProofs.lookup k) :
    CheckAlrpChainValidity ext block eh spare position = some true ∧
    CheckAlrpChainValidity ext other eh spare position = some true := by
  have h0 : 0 ≤ position := by omega
  constructor
  · exact checkAlrp_true_of_chain ext block eh spare position h0 hlen
      (Or.inr ⟨earlier, leader, later, hsplit, hprod, hlater⟩)
  · refine checkAlrp_true_of_chain ext other eh spare position h0 hlen
      (Or.inr ⟨earlier, leader, later, hsplit, ?_, ?_⟩)
    · have := hsame leader (List.mem_cons_self _ _)
      unfold acceptedProducer at hprod ⊢
      rw [this]; exact hprod
    · intro walked hw
      have := hsame walked (List.mem_cons_of_mem _ hw)
      have hacc := hlater walked hw
      unfold acceptedAlrp at hacc ⊢
      rw [this]; exact hacc

/-- Witness for C11: leaders `L0, L1, L2`, `position = 2`, a valid proof for `L1` with
`skip_index = 3`; the result is true with no entry for `L0` and with an unsigned entry
for `L0`. -/
theorem checkAlrp_short_circuit_witness :
    CheckAlrpChainValidity demoExt scenarioBlock scenarioEpoch [""] 2 = some true ∧
    CheckAlrpChainValidity demoExt scenarioBlockWithL0 scenarioEpoch [""] 2 = some true :=
  checkAlrp_short_circuit demoExt scenarioBlock scenarioBlockWithL0 scenarioEpoch [""] 2
    ["L0"] [] "L1" (by decide) (by decide) (by decide) (by decide) (by decide)
    (fun k hk => by rw [List.mem_singleton] at hk; subst hk; rfl)

/-- C12: for every block, epoch handler and position, the boolean returned by
`ExtendedCheckAlrpChainValidity` with `dontCheckSigna = false` is the result of
`CheckAlrpChainValidity` (and the two panic on the same positions), whatever the spare
capacity of the slice holds. -/
theorem extendedCheck_false_eq_check (ext : Externals) (block : Block)
    (eh : EpochDataHandler) (spare : List String) (position : Int) :
    (ExtendedCheckAlrpChainValidity ext block eh spare position false).map Prod.fst =
      CheckAlrpChainValidity ext block eh spare position := by
  unfold ExtendedCheckAlrpChainValidity CheckAlrpChainValidity
  by_cases hguard : position < 0 ∨ position > (eh.LeadersSequence ++ spare).length
  · simp only [hguard, if_true, Option.map_none']
  · simp only [hguard, if_false]
    have hmap := extendedAlrpLoop_false ext block.ExtraData.AggregatedLeadersRotationProofs eh
      ((eh.LeadersSequence ++ spare).take position.toNat).reverse 0 []
    cases hext : extendedAlrpLoop ext block.ExtraData.AggregatedLeadersRotationProofs eh false
        ((eh.LeadersSequence ++ spare).take position.toNat).reverse 0 [] with
    | none =>
      rw [hext] at hmap
      simp only [Option.map_none'] at hmap
      rw [← hmap]
      rfl
    | some r =>
      obtain ⟨i, b, stats⟩ := r
      rw [hext] at hmap
      simp only [Option.map_some'] at hmap
      rw [← hmap]
      by_cases hpass : (decide ((i : Int) = position) || b) = true
      · simp [hpass]
      · simp only [hpass]
        simp only [Bool.not_eq_true] at hpass
        simp [hpass]

/-- C13, the claim as stated fails: with leaders `L0, L1, L2` in a slice of capacity 4 whose
spare string is empty and `position = 4`, the extended validator returns true with a stats
map whose only key is the empty string, which is no leader of the sequence. -/
theorem extendedCheck_stats_phantom_key :
    ((scenarioEpoch.LeadersSequence.length : Int) < 4) ∧
    "" ∉ scenarioEpoch.LeadersSequence ∧
    ExtendedCheckAlrpChainValidity demoExt phantomBlock scenarioEpoch [""] 4 false =
      some (true, [("", ⟨0, "g", "f"⟩)]) :=
  ⟨by decide, by decide, rfl⟩

/-- C13 as amended: for every block, epoch handler, spare capacity, position and
`dontCheckSigna`, `ExtendedCheckAlrpChainValidity` panics when the position is negative or
exceeds the capacity, and otherwise returns. It returns true exactly when every element
walked of the slice `leaders_sequence[:position]` (from its last element back to the first
one whose entry has `skip_index >= 0`, or the whole slice) has an entry that passes the
signature test; then the keys of the stats map are exactly the elements walked and each key
maps to `(skip_index, skip_hash, first_block_hash)` of its entry. When it returns false the
stats map is empty. For `position <= len(leaders_sequence)` the elements walked are leaders
of the sequence; beyond the length they include strings of the spare capacity. -/
theorem extendedCheck_stats (ext : Externals) (block : Block) (eh : EpochDataHandler)
    (spare : List String) (position : Int) (dontCheckSigna : Bool) :
    (position < 0 ∨ position > ((eh.LeadersSequence.length + spare.length : Nat) : Int) →
      ExtendedCheckAlrpChainValidity ext block eh spare position dontCheckSigna = none) ∧
    (0 ≤ position → position ≤ ((eh.LeadersSequence.length + spare.length : Nat) : Int) →
      ∃ ok stats, ExtendedCheckAlrpChainValidity ext block eh spare position dontCheckSigna =
          some (ok, stats) ∧
        (ok = true ↔
          ∀ k ∈ walkedLeaders block.ExtraData.AggregatedLeadersRotationProofs
              ((eh.LeadersSequence ++ spare).take position.toNat).reverse,
            walkAccepted ext block eh dontCheckSigna k = true) ∧
        (ok = false → stats = []) ∧
        (ok = true → NodupKeys stats ∧
          (∀ k, k ∈ stats.map Prod.fst ↔
            k ∈ walkedLeaders block.ExtraData.AggregatedLeadersRotationProofs
              ((eh.LeadersSequence ++ spare).take position.toNat).reverse) ∧
          ∀ k ∈ walkedLeaders block.ExtraData.AggregatedLeadersRotationProofs
              ((eh.LeadersSequence ++ spare).take position.toNat).reverse,
            ∃ alrp, block.ExtraData.AggregatedLeadersRotationProofs.lookup k = some alrp ∧
              stats.lookup k =
                some ⟨alrp.SkipIndex, alrp.SkipHash, alrp.FirstBlockHash⟩)) ∧
    (position ≤ eh.LeadersSequence.length →
      ∀ k ∈ walkedLeaders block.ExtraData.AggregatedLeadersRotationProofs
          ((eh.LeadersSequence ++ spare).take position.toNat).reverse,
        k ∈ eh.LeadersSequence) := by
  refine ⟨?_, ?_, ?_⟩
  · intro hout
    have hguard : position < 0 ∨ position > (eh.LeadersSequence ++ spare).length := by
      rw [List.length_append]; exact hout
    unfold ExtendedCheckAlrpChainValidity
    simp only [hguard, if_true]
  · intro h0 hcap
    have hguard : ¬ (position < 0 ∨ position > (eh.LeadersSequence ++ spare).length) := by
      rw [List.length_append]; omega
    have hl : (((eh.LeadersSequence ++ spare).take position.toNat).reverse).length =
        position.toNat := by
      rw [List.length_reverse, List.length_take, List.length_append]
      omega
    have harith : ∀ i : Nat, i = 0 + position.toNat → (i : Int) = position := by
      intro i; omega
    have hsome := extendedAlrpLoop_isSome_iff ext block eh dontCheckSigna
      ((eh.LeadersSequence ++ spare).take position.toNat).reverse 0 []
    unfold ExtendedCheckAlrpChainValidity
    simp only [hguard, if_false]
    cases hext : extendedAlrpLoop ext block.ExtraData.AggregatedLeadersRotationProofs eh
        dontCheckSigna ((eh.LeadersSequence ++ spare).take position.toNat).reverse 0 [] with
    | none =>
      rw [hext] at hsome
      refine ⟨false, [], rfl, ?_, fun _ => rfl, fun h => (by cases h)⟩
      constructor
      · intro h; cases h
      · intro h
        have := hsome.2 h
        cases this
    | some r =>
      obtain ⟨i, b, stats⟩ := r
      rw [hext] at hsome
      obtain ⟨hpass, hlookup, hentries, hnd⟩ := extendedAlrpLoop_stats _ _ _ _ _ _ _ _ _ _ hext
      rw [hl] at hpass
      have hcond : (decide ((i : Int) = position) || b) = true := by
        rcases hpass with hpass | hpass
        · simp [harith i hpass]
        · simp [hpass]
      refine ⟨true, stats, by simp only [hcond, if_true], ?_, fun h => (by cases h),
        fun _ => ?_⟩
      · constructor
        · intro _
          exact hsome.1 rfl
        · intro _
          rfl
      · refine ⟨hnd List.nodup_nil, ?_, ?_⟩
        · intro k
          rw [mem_keys_iff_lookup, hlookup k]
          by_cases hk : k ∈ walkedLeaders block.ExtraData.AggregatedLeadersRotationProofs
              ((eh.LeadersSequence ++ spare).take position.toNat).reverse
          · have := hentries k hk
            simp only [hk, if_true, Option.isSome_map', this]
          · simp [hk]
        · intro k hk
          have hks := hentries k hk
          cases hlk : block.ExtraData.AggregatedLeadersRotationProofs.lookup k with
          | none => rw [hlk] at hks; cases hks
          | some alrp =>
            refine ⟨alrp, rfl, ?_⟩
            rw [hlookup k]
            simp only [hk, if_true, hlk, Option.map_some']
            rfl
  · intro hlen k hk
    have hmem := walkedLeaders_subset _ _ k hk
    rw [List.mem_reverse] at hmem
    have htake : (eh.LeadersSequence ++ spare).take position.toNat =
        eh.LeadersSequence.take position.toNat :=
      List.take_append_of_le_length (by omega)
    rw [htake] at hmem
    exact List.mem_of_mem_take hmem

/-- Witness for C13 as amended: in the short-circuit scenario at `position = 2` the extended
validator returns true with the stats of `L1`, the only leader walked. -/
theorem extendedCheck_stats_witness :
    ExtendedCheckAlrpChainValidity demoExt scenarioBlock scenarioEpoch [""] 2 false =
      some (true, [("L1", ⟨3, "g", "f"⟩)]) ∧
    ∃ ok stats, ExtendedCheckAlrpChainValidity demoExt scenarioBlock scenarioEpoch [""] 2
          false = some (ok, stats) ∧
        (ok = true ↔
          ∀ k ∈ walkedLeaders scenarioBlock.ExtraData.AggregatedLeadersRotationProofs
              ((scenarioEpoch.LeadersSequence ++ [""]).take (2 : Int).toNat).reverse,
            walkAccepted demoExt scenarioBlock scenarioEpoch false k = true) ∧
        (ok = false → stats = []) ∧
        (ok = true → NodupKeys stats ∧
          (∀ k, k ∈ stats.map Prod.fst ↔
            k ∈ walkedLeaders scenarioBlock.ExtraData.AggregatedLeadersRotationProofs
              ((scenarioEpoch.LeadersSequence ++ [""]).take (2 : Int).toNat).reverse) ∧
          ∀ k ∈ walkedLeaders scenarioBlock.ExtraData.AggregatedLeadersRotationProofs
              ((scenarioEpoch.LeadersSequence ++ [""]).take (2 : Int).toNat).reverse,
            ∃ alrp, scenarioBlock.ExtraData.AggregatedLeadersRotationProofs.lookup k =
                some alrp ∧
              stats.lookup k =
                some ⟨alrp.SkipIndex, alrp.SkipHash, alrp.FirstBlockHash⟩) :=
  ⟨rfl, (extendedCheck_stats demoExt scenarioBlock scenarioEpoch [""] 2 false).2.1
    (by decide) (by decide)⟩

/-- C14, the claim as stated fails: for `last_leader = 2^63`, a value of the 64-bit uint
range, the message holds `-9223372036854775808` where the unsigned decimal is
`9223372036854775808`. -/
theorem epoch_message_large_uint :
    (2 ^ 63 : Nat) < 2 ^ 64 ∧
    epochFinalizationData ⟨2 ^ 63, 0, "h", "f", []⟩ "e" =
      "EPOCH_DONE:-9223372036854775808:0:h:f:e" ∧
    epochFinalizationData ⟨2 ^ 63, 0, "h", "f", []⟩ "e" ≠
      "EPOCH_DONE:" ++ decimal (2 ^ 63) ++ ":" ++ decimal 0 ++ ":" ++ "h" ++ ":" ++ "f" ++
        ":" ++ "e" := by
  decide

/-- C14 as amended: for `last_leader` and `last_index` in the 64-bit uint range, the message
that `VerifyAggregatedEpochFinalizationProof` checks signatures against is `"EPOCH_DONE:"`,
the two numbers, the two hashes and the epoch full id joined by `":"`, where a number `x`
is rendered as the decimal of `int(x)`: the unsigned decimal of `x` when `x < 2^63`, and
`"-"` followed by the decimal of `2^64 - x` otherwise. -/
theorem epoch_message_signed_decimal (ext : Externals) (efp : AggregatedEpochFinalizationProof)
    (quorum : List String) (majority : Int) (fullID : String)
    (hleader : efp.LastLeader < 2 ^ 64) (hindex : efp.LastIndex < 2 ^ 64) :
    epochFinalizationData efp fullID =
      "EPOCH_DONE:" ++ signedDecimal efp.LastLeader ++ ":" ++ signedDecimal efp.LastIndex ++
        ":" ++ efp.LastHash ++ ":" ++ efp.HashOfFirstBlockByLastLeader ++ ":" ++ fullID ∧
    VerifyAggregatedEpochFinalizationProof ext efp quorum majority fullID =
      decide ((okSignatures ext
        ("EPOCH_DONE:" ++ signedDecimal efp.LastLeader ++ ":" ++ signedDecimal efp.LastIndex ++
          ":" ++ efp.LastHash ++ ":" ++ efp.HashOfFirstBlockByLastLeader ++ ":" ++ fullID)
        quorum efp.Proofs : Int) ≥ majority) ∧
    (efp.LastLeader < 2 ^ 63 → efp.LastIndex < 2 ^ 63 →
      epochFinalizationData efp fullID =
        "EPOCH_DONE:" ++ decimal efp.LastLeader ++ ":" ++ decimal efp.LastIndex ++
          ":" ++ efp.LastHash ++ ":" ++ efp.HashOfFirstBlockByLastLeader ++ ":" ++ fullID) := by
  have hmsg : epochFinalizationData efp fullID =
      "EPOCH_DONE:" ++ signedDecimal efp.LastLeader ++ ":" ++ signedDecimal efp.LastIndex ++
        ":" ++ efp.LastHash ++ ":" ++ efp.HashOfFirstBlockByLastLeader ++ ":" ++ fullID := by
    unfold epochFinalizationData
    rw [itoa_uintToInt _ hleader, itoa_uintToInt _ hindex]
  refine ⟨hmsg, ?_, ?_⟩
  · unfold VerifyAggregatedEpochFinalizationProof
    simp only [hmsg]
  · intro h₁ h₂
    rw [hmsg]
    simp only [signedDecimal, h₁, h₂, if_true]

/-- Witness for C14 as amended: `last_leader = 7`, `last_index = 2^63 + 1`. -/
theorem epoch_message_signed_decimal_witness :
    epochFinalizationData ⟨7, 2 ^ 63 + 1, "h", "f", []⟩ "e" =
      "EPOCH_DONE:" ++ signedDecimal 7 ++ ":" ++ signedDecimal (2 ^ 63 + 1) ++
        ":" ++ "h" ++ ":" ++ "f" ++ ":" ++ "e" :=
  (epoch_message_signed_decimal demoExt ⟨7, 2 ^ 63 + 1, "h", "f", []⟩ [] 0 "e"
    (by decide) (by decide)).1

/-- C15: with an empty `pools_registry`, for every seed `SetLeadersSequence` sets
`leaders_sequence` to the empty sequence, and for every seed and quorum size (negative
ones included) `GetCurrentEpochQuorum` returns the empty sequence; neither panics, for
every content of the state store and every hash. -/
theorem sampling_empty_registry (ext : Externals) (state : ApprovementThreadState)
    (order : RangeOrder) (eh : EpochDataHandler) (quorumSize : Int) (seed : String)
    (hempty : eh.PoolsRegistry = []) :
    SetLeadersSequence ext state order eh seed =
      some ⟨eh.Id, eh.Hash, [], eh.Quorum, []⟩ ∧
    GetCurrentEpochQuorum ext state order eh quorumSize seed = some [] := by
  constructor
  · simp [SetLeadersSequence, hempty, collectValidators, samplerLoop]
  · unfold GetCurrentEpochQuorum
    rw [hempty]
    by_cases hq : (0 : Int) ≤ quorumSize
    · simp [hq]
    · have hneg : quorumSize.toNat = 0 := by omega
      simp [hq, collectValidators, hneg, samplerLoop]

/-- Witness for C15: an epoch without pools, quorum size `-3`, a state store without any
pool. -/
theorem sampling_empty_registry_witness :
    SetLeadersSequence demoExt (stateOf []) listOrder ⟨4, "h", [], ["a"], ["x"]⟩ "s" =
      some ⟨4, "h", [], ["a"], []⟩ ∧
    GetCurrentEpochQuorum demoExt (stateOf []) listOrder ⟨4, "h", [], ["a"], ["x"]⟩ (-3) "s" =
      some [] :=
  sampling_empty_registry demoExt (stateOf []) listOrder ⟨4, "h", [], ["a"], ["x"]⟩ (-3) "s" rfl

/-- C16, the claim as stated fails: for index `2^63` the store holds a decodable block under
the key `0:c:9223372036854775808`, but `GetBlock` looks up `0:c:-9223372036854775808`,
misses it, issues a request to the bootstrap node and returns no block. -/
theorem getBlock_large_index_misses_store :
    demoBlocksLarge ("0" ++ ":" ++ "c" ++ ":" ++ decimal (2 ^ 63)) = some [1] ∧
    demoUnmarshal [1] = some (some scenarioBlock) ∧
    GetBlock demoBlocksLarge demoUnmarshal ⟨"me", ["http://boot"]⟩ ⟨fun _ => none, fun l => l⟩
        (stateOf []) 0 "c" (2 ^ 63) ⟨0, "h", [], [], []⟩ =
      some (none, ["http://boot/block/0:c:-9223372036854775808"]) :=
  ⟨by decide, rfl, rfl⟩

/-- C16 as amended: for every epoch index, creator and 64-bit unsigned index, when the
store holds bytes that decode as a block under the key that joins, by `":"`, the decimal of
the epoch index, the creator and the decimal of `int(index)` (the decimal of the index when
`index < 2^63`, a minus sign followed by the decimal of `2^64 - index` otherwise), `GetBlock`
returns that block and issues no HTTP request, whatever the quorum, the state store, the
bootstrap list and the peers are. -/
theorem getBlock_store_hit (blocks : String → Option (List Nat))
    (unmarshal : List Nat → Option (Option Block)) (config : Configuration) (peers : Peers)
    (state : ApprovementThreadState) (epochIndex : Int) (blockCreator : String) (index : Nat)
    (eh : EpochDataHandler) (blockAsBytes : List Nat) (blockParsed : Block)
    (hindex : index < 2 ^ 64)
    (hget : blocks (Itoa epochIndex ++ ":" ++ blockCreator ++ ":" ++ signedDecimal index) =
      some blockAsBytes)
    (hdecode : unmarshal blockAsBytes = some (some blockParsed)) :
    GetBlock blocks unmarshal config peers state epochIndex blockCreator index eh =
      some (some blockParsed, []) ∧
    (index < 2 ^ 63 →
      Itoa epochIndex ++ ":" ++ blockCreator ++ ":" ++ signedDecimal index =
        Itoa epochIndex ++ ":" ++ blockCreator ++ ":" ++ decimal index) := by
  constructor
  · have hkey : blockID epochIndex blockCreator index =
        Itoa epochIndex ++ ":" ++ blockCreator ++ ":" ++ signedDecimal index := by
      unfold blockID
      rw [itoa_uintToInt index hindex]
    unfold GetBlock
    simp only [hkey, hget, hdecode]
  · intro hlt
    simp only [signedDecimal, hlt, if_true]

/-- Witness for C16 as amended: the store holds the block of index `2^63` under the key
`0:c:-9223372036854775808`; no request is issued although a bootstrap node is configured. -/
theorem getBlock_store_hit_witness :
    GetBlock demoBlocksSigned demoUnmarshal ⟨"me", ["http://boot"]⟩
        ⟨fun _ => none, fun l => l⟩ (stateOf []) 0 "c" (2 ^ 63) demoEpoch =
      some (some scenarioBlock, []) :=
  (getBlock_store_hit demoBlocksSigned demoUnmarshal ⟨"me", ["http://boot"]⟩
    ⟨fun _ => none, fun l => l⟩ (stateOf []) 0 "c" (2 ^ 63) demoEpoch [1] scenarioBlock
    (by decide) (by decide) rfl).1

/-- C18: when the quorum of the epoch is empty, `GetQuorumMajority` returns 0 and
`VerifyAggregatedFinalizationProof` and `VerifyAggregatedLeaderRotationProof` return true
for every proof, a proof without signatures included; `VerifyAggregatedEpochFinalizationProof`
returns true for every proof and quorum whenever its majority argument is `<= 0`. -/
theorem empty_quorum_accepts_every_proof (ext : Externals) (eh : EpochDataHandler)
    (hquorum : eh.Quorum = []) :
    GetQuorumMajority eh = 0 ∧
    (∀ afp : AggregatedFinalizationProof, VerifyAggregatedFinalizationProof ext afp eh = true) ∧
    (∀ (prevLeader : String) (alrp : AggregatedLeaderRotationProof),
      VerifyAggregatedLeaderRotationProof ext prevLeader alrp eh = true) ∧
    (∀ (efp : AggregatedEpochFinalizationProof) (quorum : List String) (majority : Int)
        (fullID : String), majority ≤ 0 →
      VerifyAggregatedEpochFinalizationProof ext efp quorum majority fullID = true) := by
  have hmaj : GetQuorumMajority eh = 0 := by
    simp [GetQuorumMajority, hquorum]
  refine ⟨hmaj, ?_, ?_, ?_⟩
  · intro afp
    simp only [VerifyAggregatedFinalizationProof, hmaj, ge_iff_le, decide_eq_true_eq]
    omega
  · intro prevLeader alrp
    simp only [VerifyAggregatedLeaderRotationProof, hmaj, ge_iff_le, decide_eq_true_eq]
    omega
  · intro efp quorum majority fullID hle
    simp only [VerifyAggregatedEpochFinalizationProof, ge_iff_le, decide_eq_true_eq]
    omega

/-- Witness for C18: an epoch with an empty quorum accepts a finalization proof without
signatures. -/
theorem empty_quorum_accepts_every_proof_witness :
    VerifyAggregatedFinalizationProof demoExt ⟨"p", "0:a:1", "x", []⟩
      ⟨0, "h", ["a"], [], ["a"]⟩ = true :=
  (empty_quorum_accepts_every_proof demoExt ⟨0, "h", ["a"], [], ["a"]⟩ rfl).2.1
    ⟨"p", "0:a:1", "x", []⟩

/-! ## Claims on the draw of the samplers -/

/-- C17: in an iteration of the sampler loop that starts with the candidates `m` (a map),
their total stake `T > 0` and the draw `r = hash value mod T`, the candidate appended is the
first one, in the iteration order of that loop, whose running cumulative stake `c` satisfies
`r <= c`; it is deleted from the map and its stake is subtracted from `T` for the remaining
iterations. In particular the registry `A: 1, B: 1` iterated in the order `A, B` gives the
leaders sequence `[A, B]`, for every draw and so for `r0 = 0`. -/
theorem sampler_picks_first_candidate (ext : Externals) (order : RangeOrder)
    (horder : order.Valid) :
    (∀ (hash : String) (n i : Nat) (sequence : List String) (T : Int)
        (m : List (String × ValidatorData)),
      NodupKeys m → T = stakeSum m → 0 < T →
      ∃ before pk v after,
        order i m = before ++ (pk, v) :: after ∧
        (ext.SetString16 (ext.Blake3 (hash ++ "_" ++ Itoa i)) : Int) % T ≤
          stakeSum before + (v.TotalStake : Int) ∧
        (∀ b₁ x b₂, before = b₁ ++ x :: b₂ →
          stakeSum b₁ + (x.2.TotalStake : Int) <
            (ext.SetString16 (ext.Blake3 (hash ++ "_" ++ Itoa i)) : Int) % T) ∧
        m.Perm ((pk, v) :: mapDelete pk m) ∧
        samplerLoop ext order hash (n + 1) i sequence T m =
          samplerLoop ext order hash n (i + 1) (sequence ++ [pk]) (T - (v.TotalStake : Int))
            (mapDelete pk m)) ∧
    (∀ (state : ApprovementThreadState) (eh : EpochDataHandler) (seed : String),
      eh.PoolsRegistry = ["A", "B"] → AllStored state ["A", "B"] →
      stakeOf state "A" = 1 → stakeOf state "B" = 1 →
      order 0 [("A", ⟨"A", 1⟩), ("B", ⟨"B", 1⟩)] = [("A", ⟨"A", 1⟩), ("B", ⟨"B", 1⟩)] →
      SetLeadersSequence ext state order eh seed =
        some ⟨eh.Id, eh.Hash, eh.PoolsRegistry, eh.Quorum, ["A", "B"]⟩) := by
  constructor
  · intro hash n i sequence T m hnd hT hpos
    have hz : T ≠ 0 := by omega
    obtain ⟨pk, v, hpick, hmem, _, _, _, _, _⟩ :=
      sampler_iteration order horder i
        (ext.SetString16 (ext.Blake3 (hash ++ "_" ++ Itoa i)) : Int) T m hnd hT hz
    obtain ⟨before, after, hsplit, hle, hfirst⟩ := pickValidator_first _ _ _ _ hpick
    refine ⟨before, pk, v, after, hsplit, by simpa using hle, ?_,
      perm_cons_mapDelete m (pk, v) hnd hmem, ?_⟩
    · intro b₁ x b₂ hb
      have := hfirst b₁ x b₂ hb
      simpa using this
    · rw [samplerLoop]
      simp only [hz, if_false, hpick]
  · intro state eh seed hreg hstored hA hB hAB
    rw [setLeadersSequence_two_pools ext state order eh seed "A" "B" hreg (by decide) hstored
      hA hB horder, hAB]
    rfl

/-- Witness for C17: the registry `A: 1, B: 1` iterated in the order of the list, with the
draw `r0 = 0`. -/
theorem sampler_picks_first_candidate_witness :
    SetLeadersSequence demoExt (stateOf [("A", 1), ("B", 1)]) listOrder
      ⟨0, "h", ["A", "B"], [], []⟩ "x" = some ⟨0, "h", ["A", "B"], [], ["A", "B"]⟩ :=
  (sampler_picks_first_candidate demoExt listOrder (fun _ _ => List.Perm.refl _)).2
    (stateOf [("A", 1), ("B", 1)]) ⟨0, "h", ["A", "B"], [], []⟩ "x" rfl (by decide)
    (by decide) (by decide) rfl

/-- C19: for a registry of exactly two pools that both have stake 1, `SetLeadersSequence`
returns the two pools in the order in which the first inner loop visits them, for every
seed and every hash function; hence the order of the list and the reverse order give
different leaders sequences for the same seed. -/
theorem two_equal_pools_follow_iteration_order (ext : Externals)
    (state : ApprovementThreadState) (order : RangeOrder) (eh : EpochDataHandler)
    (seed : String) (p q : String) (hreg : eh.PoolsRegistry = [p, q]) (hne : p ≠ q)
    (hstored : AllStored state [p, q]) (hp : stakeOf state p = 1) (hq : stakeOf state q = 1)
    (horder : order.Valid) :
    SetLeadersSequence ext state order eh seed =
      some ⟨eh.Id, eh.Hash, eh.PoolsRegistry, eh.Quorum,
        (order 0 [(p, ⟨p, 1⟩), (q, ⟨q, 1⟩)]).map Prod.fst⟩ ∧
    (SetLeadersSequence ext state listOrder eh seed).map (fun e => e.LeadersSequence) =
      some [p, q] ∧
    (SetLeadersSequence ext state reverseOrder eh seed).map (fun e => e.LeadersSequence) =
      some [q, p] ∧
    (SetLeadersSequence ext state listOrder eh seed).map (fun e => e.LeadersSequence) ≠
      (SetLeadersSequence ext state reverseOrder eh seed).map (fun e => e.LeadersSequence) := by
  have hlist : (SetLeadersSequence ext state listOrder eh seed).map
      (fun e => e.LeadersSequence) = some [p, q] := by
    rw [setLeadersSequence_two_pools ext state listOrder eh seed p q hreg hne hstored hp hq
      (fun _ _ => List.Perm.refl _)]
    rfl
  have hrev : (SetLeadersSequence ext state reverseOrder eh seed).map
      (fun e => e.LeadersSequence) = some [q, p] := by
    rw [setLeadersSequence_two_pools ext state reverseOrder eh seed p q hreg hne hstored hp hq
      (fun _ m => List.reverse_perm m)]
    rfl
  refine ⟨setLeadersSequence_two_pools ext state order eh seed p q hreg hne hstored hp hq
    horder, hlist, hrev, ?_⟩
  rw [hlist, hrev]
  intro h
  simp only [Option.some.injEq, List.cons.injEq, and_true] at h
  exact hne h.1

/-- Witness for C19: the registry `A: 1, B: 1` gives `[A, B]` in list order and `[B, A]` in
reverse order. -/
theorem two_equal_pools_follow_iteration_order_witness :
    (SetLeadersSequence demoExt (stateOf [("A", 1), ("B", 1)]) listOrder
      ⟨0, "h", ["A", "B"], [], []⟩ "x").map (fun e => e.LeadersSequence) = some ["A", "B"] ∧
    (SetLeadersSequence demoExt (stateOf [("A", 1), ("B", 1)]) reverseOrder
      ⟨0, "h", ["A", "B"], [], []⟩ "x").map (fun e => e.LeadersSequence) = some ["B", "A"] :=
  ⟨(two_equal_pools_follow_iteration_order demoExt (stateOf [("A", 1), ("B", 1)]) listOrder
      ⟨0, "h", ["A", "B"], [], []⟩ "x" "A" "B" rfl (by decide) (by decide) (by decide)
      (by decide) (fun _ _ => List.Perm.refl _)).2.1,
    (two_equal_pools_follow_iteration_order demoExt (stateOf [("A", 1), ("B", 1)]) listOrder
      ⟨0, "h", ["A", "B"], [], []⟩ "x" "A" "B" rfl (by decide) (by decide) (by decide)
      (by decide) (fun _ _ => List.Perm.refl _)).2.2.1⟩

end ProtoLayer
